import Mathlib

/-!
Verification of the `nav2_route::RoutePlanner` optimal route search, the class
declared in `src/nav2_route/include/nav2_route/route_planner.hpp`.

The repository contains only the class header: it declares `findRoute`,
`findShortestGraphTraversal`, `resetSearchStates`, `getTraversalCost`,
`getNextNode`, `addNode`, `clearQueue`, `isGoal` and the member
`int max_iterations_{0}`, but none of their bodies.  Every operation below
whose doc comment starts with `Modelled from the spec:` is therefore a
shallow embedding of the specification's description of that operation
rather than of a C++ function body.

Modelling conventions:
* costs live in an arbitrary linearly ordered additive commutative monoid
  `α` (the C++ uses `float`; the claims are about the ordered additive
  arithmetic of non-negative costs, not about rounding, so every theorem
  holds in particular at `α = ℚ`, and concrete runs are evaluated at
  `α = ℤ`);
* `float` infinity (an unset `best_cost`) is `none : Option α`;
* the iteration cap is a natural number (the header's `int max_iterations_{0}`
  is configured from a non-negative parameter, `0` meaning unbounded);
* a scorer plugin's `score(edge) -> (valid : bool, cost : float)` is a
  function `Edge → Option α`, `none` meaning the edge is vetoed;
* the search loop is a step function on an explicit search state, iterated a
  provably sufficient number of times;
* the typed failures thrown by `findRoute` are the `Except` error results
  `invalidRequest`, `noValidRouteFound`, `iterationLimitExceeded`.
-/

namespace Nav2Route

variable {α : Type} [LinearOrderedAddCommMonoid α]

/-- A directed edge of the navigation graph, a reference from its source
node's index to its target node's index. -/
structure Edge where
  src : Nat
  dst : Nat
deriving DecidableEq, Repr

/-- A graph node: its static outgoing-edge list plus the transient per-search
state `{visited, best_cost, parent_edge}` that the spec embeds on each node
(`best_cost = none` models `+infinity`, `parent_edge = none` models "no
parent"). -/
structure Node (α : Type) where
  out : List Edge
  visited : Bool := false
  best_cost : Option α := none
  parent_edge : Option Edge := none
deriving DecidableEq

/-- The graph: a mapping from a stable integer index to its `Node` (index =
list position). -/
abbrev Graph (α : Type) := List (Node α)

/-- The static topology view of a graph: each node's outgoing-edge list,
stripped of the transient search state.  The search never mutates it. -/
abbrev Topo := List (List Edge)

/-- `getEdges`: the outgoing edges of node `u` (an out-of-range index has
none). -/
def getEdges (topo : Topo) (u : Nat) : List Edge :=
  topo.getD u []

/-- Total number of edges of the graph. -/
def totalEdges (topo : Topo) : Nat :=
  (topo.map List.length).sum

/-- The documented `Graph` invariant: every edge's endpoints are valid
indices within the same graph. -/
def GraphWF (topo : Topo) : Prop :=
  ∀ u, ∀ e ∈ getEdges topo u, e.dst < topo.length

/-- An `EdgeScorer`'s configured chain of scoring strategies.  Each strategy
maps an edge to `some cost` or vetoes it (`none`). -/
abbrev ScorerChain (α : Type) := List (Edge → Option α)

/-- Modelled from the spec: `RoutePlanner::getTraversalCost` evaluates an
edge through the scorer chain: the effective cost is the sum of the active
strategies' contributions, and a veto from any single strategy invalidates
the edge regardless of the others. -/
def getTraversalCost (chain : ScorerChain α) (e : Edge) : Option α :=
  chain.foldr
    (fun sc acc =>
      match sc e, acc with
      | some ec, some total => some (ec + total)
      | _, _ => none)
    (some 0)

/-- The scorer contract's correctness precondition: every strategy produces
only non-negative costs. -/
def NonNegScorers (chain : ScorerChain α) : Prop :=
  ∀ sc ∈ chain, ∀ e c, sc e = some c → 0 ≤ c

/-- The output artifact: ordered start-to-goal edges plus aggregate cost.
A one-node route has no edges. -/
structure Route (α : Type) where
  start : Nat
  edges : List Edge
  route_cost : α
deriving DecidableEq

/-- The typed failures `findRoute` surfaces to its caller. -/
inductive RouteError where
  | invalidRequest
  | noValidRouteFound
  | iterationLimitExceeded
deriving DecidableEq, Repr

/-- How one run of the search loop terminated. -/
inductive SearchOutcome where
  | goalFound
  | exhausted
  | iterLimit
deriving DecidableEq, Repr

/-- The mutable state of one `findShortestGraphTraversal` run: the per-node
transient search state (indexed by node), the `NodeQueue` of
`(cost, node-index)` entries, the iteration counter, and the terminal
outcome once the loop has exited (`none` while it is still running). -/
structure SearchState (α : Type) where
  visited : List Bool
  best_cost : List (Option α)
  parent_edge : List (Option Edge)
  queue : List (α × Nat)
  iterations : Nat
  done : Option SearchOutcome
deriving DecidableEq

/-- Modelled from the spec: `RoutePlanner::clearQueue` purges all entries. -/
def clearQueue : List (α × Nat) := []

/-- Modelled from the spec: `RoutePlanner::addNode` inserts a
`(cost, node)` entry into the queue.  Repeated insertions for the same node
are permitted (lazy invalidation in lieu of decrease-key). -/
def addNode (cost : α) (node : Nat) (q : List (α × Nat)) : List (α × Nat) :=
  q ++ [(cost, node)]

/-- Modelled from the spec: `RoutePlanner::getNextNode` removes and returns
the minimum-cost entry (`none` on an empty queue).  Ties are broken
arbitrarily; this model takes the leftmost minimum. -/
def getNextNode : List (α × Nat) → Option ((α × Nat) × List (α × Nat))
  | [] => none
  | x :: xs =>
    match getNextNode xs with
    | none => some (x, [])
    | some (m, rest) => if x.1 ≤ m.1 then some (x, xs) else some (m, x :: rest)

/-- Staleness test of a popped entry: its recorded cost strictly exceeds the
node's current `best_cost` (an unset `best_cost` is `+infinity`, which no
recorded cost exceeds). -/
def isStale (best : List (Option α)) (u : Nat) (cost : α) : Bool :=
  match best.getD u none with
  | none => false
  | some b => decide (b < cost)

/-- Modelled from the spec: relaxation of a single outgoing edge.  The edge
is evaluated through the scorer chain and skipped entirely if invalid;
otherwise `candidate = node.best_cost + edge_cost` and, on improvement, the
target's `best_cost` and `parent_edge` are updated and the target is
reinserted into the queue at `candidate`. -/
def relaxEdge (chain : ScorerChain α) (du : α) (c : SearchState α) (e : Edge) :
    SearchState α :=
  match getTraversalCost chain e with
  | none => c
  | some ec =>
    let cand := du + ec
    let better :=
      match c.best_cost.getD e.dst none with
      | none => true
      | some b => decide (cand < b)
    if better then
      { c with
        best_cost := c.best_cost.set e.dst (some cand)
        parent_edge := c.parent_edge.set e.dst (some e)
        queue := addNode cand e.dst c.queue }
    else c

/-- Modelled from the spec: one pass of the search loop.  Once the loop has
exited (`done` set) the state is final.  Otherwise: an empty queue exits with
`exhausted`; a reached iteration cap (`0` meaning unbounded) exits with
`iterLimit`; else the minimum entry is popped and the iteration counter
advanced, the entry is discarded if its node is already finalized or stale,
and otherwise the node is finalized — terminating with `goalFound` if it is
the goal, and relaxing its outgoing edges if not. -/
def step (topo : Topo) (chain : ScorerChain α) (cap goal : Nat)
    (c : SearchState α) : SearchState α :=
  if c.done.isSome then c
  else
    match getNextNode c.queue with
    | none => { c with done := some .exhausted }
    | some (top, rest) =>
      if cap ≠ 0 ∧ cap ≤ c.iterations then { c with done := some .iterLimit }
      else
        let u := top.2
        if c.visited.getD u false then
          { c with queue := rest, iterations := c.iterations + 1 }
        else if isStale c.best_cost u top.1 then
          { c with queue := rest, iterations := c.iterations + 1 }
        else
          let c' := { c with
            visited := c.visited.set u true
            queue := rest
            iterations := c.iterations + 1 }
          if u = goal then { c' with done := some .goalFound }
          else
            match c.best_cost.getD u none with
            | none => c'
            | some du => (getEdges topo u).foldl (relaxEdge chain du) c'

/-- Modelled from the spec: the state set up by step 1 of
`findShortestGraphTraversal` — all search state reset, the queue cleared,
`start.best_cost = 0`, and `start` inserted at cost `0`. -/
def initialSearchState (topo : Topo) (start : Nat) : SearchState α :=
  { visited := List.replicate topo.length false
    best_cost := (List.replicate topo.length none).set start (some 0)
    parent_edge := List.replicate topo.length none
    queue := addNode 0 start clearQueue
    iterations := 0
    done := none }

/-- Termination measure of the search loop: every pass that does not exit
the loop strictly decreases it (finalizing a node pays for the at most
`totalEdges` reinsertions its relaxation can cause). -/
def searchWork (topo : Topo) (c : SearchState α) : Nat :=
  c.visited.count false * (totalEdges topo + 1) + c.queue.length

/-- An upper bound (plus one) on the number of loop passes still possible
from state `c`: each pass either exits the loop or pops an entry, and at
most `1 + totalEdges` entries are ever inserted. -/
def searchFuel (topo : Topo) (c : SearchState α) : Nat :=
  searchWork topo c + 1

/-- Modelled from the spec: `RoutePlanner::findShortestGraphTraversal`, the
Dijkstra search loop run to termination from the freshly initialised state.
The iterate count provably suffices for `done` to be set (see
`traversal_done_isSome`). -/
def findShortestGraphTraversal (topo : Topo) (chain : ScorerChain α)
    (cap start goal : Nat) : SearchState α :=
  (step topo chain cap goal)^[searchFuel topo (initialSearchState (α := α) topo start)]
    (initialSearchState topo start)

/-- Modelled from the spec: backtrace from the goal via `parent_edge` links
to the start, reversing the chain into start-to-goal order.  The fuel
argument (instantiated at node count + 1) makes the walk total. -/
def backtrace (parent : List (Option Edge)) (start : Nat) :
    Nat → Nat → List Edge
  | _, 0 => []
  | cur, fuel + 1 =>
    if cur = start then []
    else
      match parent.getD cur none with
      | none => []
      | some e => backtrace parent start e.src fuel ++ [e]

/-- Modelled from the spec: `RoutePlanner::resetSearchStates` sets every
node's `visited = false`, `best_cost = +infinity`, `parent_edge = none`. -/
def resetSearchStates (g : Graph α) : Graph α :=
  g.map fun nd => { nd with visited := false, best_cost := none, parent_edge := none }

/-- Write the final per-node search state of a run back onto the graph's
nodes (the C++ search mutates the node state in place; the embedding passes
it explicitly and reattaches it here).  The nodes' static attributes are
untouched. -/
def writebackState : Nat → SearchState α → Graph α → Graph α
  | _, _, [] => []
  | i, c, nd :: rest =>
    { nd with
      visited := c.visited.getD i false
      best_cost := c.best_cost.getD i none
      parent_edge := c.parent_edge.getD i none } :: writebackState (i + 1) c rest

/-- The `RoutePlanner` class: the header declares `int max_iterations_{0}`
(so a default-constructed planner has cap `0` = unbounded) and the edge
scorer installed by `configure`. -/
structure RoutePlanner (α : Type) where
  max_iterations : Nat := 0
  edge_scorer : ScorerChain α := []

/-- Map a finished traversal to `findRoute`'s result: on `goalFound`,
backtrace the parent links and report the goal's finalized `best_cost` as the
total cost; otherwise raise the corresponding typed failure, carrying no
partial path. -/
def routeFromSearch (topo : Topo) (start goal : Nat) (c : SearchState α) :
    Except RouteError (Route α) :=
  match c.done with
  | some .goalFound =>
    .ok ⟨start, backtrace c.parent_edge start goal (topo.length + 1),
      (c.best_cost.getD goal none).getD 0⟩
  | some .iterLimit => .error .iterationLimitExceeded
  | _ => .error .noValidRouteFound

/-- Modelled from the spec: `RoutePlanner::findRoute`.  Validates that start
and goal are in-range indices (else `invalidRequest`); resets all search
state; `start = goal` yields a trivially successful zero-cost single-node
route with no edges, without running the traversal; otherwise runs
`findShortestGraphTraversal` and converts its outcome.  The returned graph
carries the post-call per-node search state. -/
def findRoute (p : RoutePlanner α) (g : Graph α) (start goal : Nat) :
    Except RouteError (Route α) × Graph α :=
  if start < g.length ∧ goal < g.length then
    let g' := resetSearchStates g
    if start = goal then (.ok ⟨start, [], 0⟩, g')
    else
      let topo := g.map Node.out
      let c := findShortestGraphTraversal topo p.edge_scorer p.max_iterations
        start goal
      (routeFromSearch topo start goal c, writebackState 0 c g')
  else (.error .invalidRequest, g)

/-- A start-to-goal path every edge of which the scorer chain accepts, with
the sum of its scored edge costs. -/
inductive ValidPath (topo : Topo) (chain : ScorerChain α) : Nat → Nat → α → Prop
  | nil (u : Nat) : ValidPath topo chain u u 0
  | cons {u w : Nat} {ec rest : α} (e : Edge) (he : e ∈ getEdges topo u)
      (hc : getTraversalCost chain e = some ec)
      (hp : ValidPath topo chain e.dst w rest) :
      ValidPath topo chain u w (ec + rest)

/-- A topological start-to-goal path, ignoring the scorers. -/
inductive TopoPath (topo : Topo) : Nat → Nat → Prop
  | nil (u : Nat) : TopoPath topo u u
  | cons {u w : Nat} (e : Edge) (he : e ∈ getEdges topo u)
      (hp : TopoPath topo e.dst w) : TopoPath topo u w

/-- `d` is the true shortest-path cost from `s` to `t`: attained by some
valid path and a lower bound of every valid path's cost. -/
def IsLeastCost (topo : Topo) (chain : ScorerChain α) (s t : Nat) (d : α) : Prop :=
  ValidPath topo chain s t d ∧ ∀ d', ValidPath topo chain s t d' → d ≤ d'

/-- Order on optional costs with `none` as `+infinity`. -/
def costLE : Option α → Option α → Bool
  | _, none => true
  | none, some _ => false
  | some x, some y => decide (x ≤ y)

/-- The Dijkstra loop invariant tying a running search state to the graph:
recorded costs are attained by valid paths, queue entries never undercut the
recorded costs, finalized nodes carry true shortest-path costs, finalized
nodes' edges have been relaxed, and every unfinalized node with a recorded
cost still has a matching queue entry. -/
structure SearchInv (topo : Topo) (chain : ScorerChain α) (start goal : Nat)
    (c : SearchState α) : Prop where
  hlen_v : c.visited.length = topo.length
  hlen_b : c.best_cost.length = topo.length
  attain : ∀ v d, c.best_cost.getD v none = some d → ValidPath topo chain start v d
  q_attain : ∀ p ∈ c.queue, ValidPath topo chain start p.2 p.1
  q_ge : ∀ p ∈ c.queue, ∃ d, c.best_cost.getD p.2 none = some d ∧ d ≤ p.1
  settled : ∀ u, c.visited.getD u false = true →
    ∃ d, c.best_cost.getD u none = some d ∧ IsLeastCost topo chain start u d
  relaxed : c.visited.getD goal false = false → ∀ u, c.visited.getD u false = true →
    ∀ e ∈ getEdges topo u, ∀ ec, getTraversalCost chain e = some ec →
      ∃ du dv, c.best_cost.getD u none = some du ∧
        c.best_cost.getD e.dst none = some dv ∧ dv ≤ du + ec
  inqueue : ∀ v d, c.visited.getD v false = false →
    c.best_cost.getD v none = some d → (d, v) ∈ c.queue
  hstart : ∃ d0, c.best_cost.getD start none = some d0 ∧ d0 ≤ 0
  hgoal : c.visited.getD goal false = true ↔ c.done = some .goalFound
  hexh : c.done = some .exhausted → c.queue = []
  q_rng : ∀ p ∈ c.queue, p.2 < topo.length

/-- The part of the loop invariant maintained edge by edge while the popped
node's outgoing edges are being relaxed, relative to the state `base` at the
start of the relaxation (whose `visited` flags and recorded costs of visited
nodes the relaxation leaves untouched). -/
structure RelaxInv (topo : Topo) (chain : ScorerChain α) (start : Nat)
    (base : SearchState α) (s : SearchState α) : Prop where
  hvis : s.visited = base.visited
  hlen_b : s.best_cost.length = base.best_cost.length
  attain : ∀ v d, s.best_cost.getD v none = some d → ValidPath topo chain start v d
  q_attain : ∀ p ∈ s.queue, ValidPath topo chain start p.2 p.1
  q_ge : ∀ p ∈ s.queue, ∃ d, s.best_cost.getD p.2 none = some d ∧ d ≤ p.1
  inqueue : ∀ v d, s.visited.getD v false = false →
    s.best_cost.getD v none = some d → (d, v) ∈ s.queue
  hstart : ∃ d0, s.best_cost.getD start none = some d0 ∧ d0 ≤ 0
  keep : ∀ v, s.visited.getD v false = true →
    s.best_cost.getD v none = base.best_cost.getD v none
  mono : ∀ v, costLE (s.best_cost.getD v none) (base.best_cost.getD v none) = true
  q_rng : ∀ p ∈ s.queue, p.2 < topo.length

/-- Result equality for `findRoute`'s first component is decidable (used to
evaluate concrete runs). -/
instance {ε β : Type} [DecidableEq ε] [DecidableEq β] :
    DecidableEq (Except ε β) := fun x y =>
  match x, y with
  | .ok a, .ok b =>
    if h : a = b then .isTrue (by rw [h]) else .isFalse (by simp [h])
  | .error a, .error b =>
    if h : a = b then .isTrue (by rw [h]) else .isFalse (by simp [h])
  | .ok _, .error _ => .isFalse (by simp)
  | .error _, .ok _ => .isFalse (by simp)

/-- The spec's four-edge example: nodes A=0, B=1, C=2, D=3 with edges
A→B, B→D, A→C, C→D. -/
def exampleGraph : Graph ℤ :=
  [ ⟨[⟨0, 1⟩, ⟨0, 2⟩], false, none, none⟩
  , ⟨[⟨1, 3⟩], false, none, none⟩
  , ⟨[⟨2, 3⟩], false, none, none⟩
  , ⟨[], false, none, none⟩ ]

/-- The example's single scoring strategy: costs 1, 1, 1, 5 on the four
edges, vetoing anything else. -/
def exampleScore (e : Edge) : Option ℤ :=
  if e = ⟨0, 1⟩ then some 1
  else if e = ⟨1, 3⟩ then some 1
  else if e = ⟨0, 2⟩ then some 1
  else if e = ⟨2, 3⟩ then some 5
  else none

/-- The example's scorer chain. -/
def exampleChain : ScorerChain ℤ := [exampleScore]

/-- The example's planner: unbounded iterations, the example chain. -/
def examplePlanner : RoutePlanner ℤ :=
  { max_iterations := 0, edge_scorer := exampleChain }

/-- `getNextNode` returns `none` exactly on the empty queue. -/
theorem getNextNode_eq_none {l : List (α × Nat)} :
    getNextNode l = none ↔ l = [] := by
  induction l with
  | nil => simp [getNextNode]
  | cons x xs ih =>
    cases h : getNextNode xs with
    | none => simp [getNextNode, h]
    | some p =>
      obtain ⟨m, rest⟩ := p
      by_cases hx : x.1 ≤ m.1 <;> simp [getNextNode, h, hx]

/-- Popping returns a permutation: the queue is the popped entry plus the
remainder. -/
theorem getNextNode_perm {l : List (α × Nat)} {m : α × Nat}
    {rest : List (α × Nat)} (h : getNextNode l = some (m, rest)) :
    l.Perm (m :: rest) := by
  induction l generalizing m rest with
  | nil => simp [getNextNode] at h
  | cons x xs ih =>
    rw [getNextNode] at h
    cases h' : getNextNode xs with
    | none =>
      rw [h'] at h
      simp only [Option.some.injEq, Prod.mk.injEq] at h
      obtain ⟨rfl, rfl⟩ := h
      rw [getNextNode_eq_none.mp h']
    | some p =>
      obtain ⟨m', rest'⟩ := p
      rw [h'] at h
      dsimp only at h
      by_cases hx : x.1 ≤ m'.1
      · rw [if_pos hx] at h
        simp only [Option.some.injEq, Prod.mk.injEq] at h
        obtain ⟨rfl, rfl⟩ := h
        exact List.Perm.refl _
      · rw [if_neg hx] at h
        simp only [Option.some.injEq, Prod.mk.injEq] at h
        obtain ⟨rfl, rfl⟩ := h
        exact ((ih h').cons x).trans (List.Perm.swap m' x rest')

/-- The popped entry has minimal cost among all queue entries. -/
theorem getNextNode_min {l : List (α × Nat)} {m : α × Nat}
    {rest : List (α × Nat)} (h : getNextNode l = some (m, rest)) :
    ∀ p ∈ l, m.1 ≤ p.1 := by
  induction l generalizing m rest with
  | nil => simp [getNextNode] at h
  | cons x xs ih =>
    rw [getNextNode] at h
    cases h' : getNextNode xs with
    | none =>
      rw [h'] at h
      simp only [Option.some.injEq, Prod.mk.injEq] at h
      obtain ⟨rfl, rfl⟩ := h
      intro p hp
      rcases List.mem_cons.mp hp with rfl | hp'
      · exact le_refl _
      · rw [getNextNode_eq_none.mp h'] at hp'
        cases hp'
    | some p =>
      obtain ⟨m', rest'⟩ := p
      rw [h'] at h
      dsimp only at h
      by_cases hx : x.1 ≤ m'.1
      · rw [if_pos hx] at h
        simp only [Option.some.injEq, Prod.mk.injEq] at h
        obtain ⟨rfl, rfl⟩ := h
        intro p hp
        rcases List.mem_cons.mp hp with rfl | hp'
        · exact le_refl _
        · exact hx.trans (ih h' p hp')
      · rw [if_neg hx] at h
        simp only [Option.some.injEq, Prod.mk.injEq] at h
        obtain ⟨rfl, rfl⟩ := h
        intro p hp
        rcases List.mem_cons.mp hp with rfl | hp'
        · exact (not_le.mp hx).le
        · exact ih h' p hp'

/-- The popped entry was a queue entry. -/
theorem getNextNode_mem {l : List (α × Nat)} {m : α × Nat}
    {rest : List (α × Nat)} (h : getNextNode l = some (m, rest)) : m ∈ l :=
  (getNextNode_perm h).symm.subset (List.mem_cons_self m rest)

/-- Any queue entry other than the popped one remains in the remainder. -/
theorem getNextNode_mem_rest {l : List (α × Nat)} {m x : α × Nat}
    {rest : List (α × Nat)} (h : getNextNode l = some (m, rest))
    (hx : x ∈ l) (hne : x ≠ m) : x ∈ rest := by
  rcases List.mem_cons.mp ((getNextNode_perm h).subset hx) with rfl | h'
  · exact absurd rfl hne
  · exact h'

/-- Entries of the remainder were queue entries. -/
theorem getNextNode_rest_subset {l : List (α × Nat)} {m x : α × Nat}
    {rest : List (α × Nat)} (h : getNextNode l = some (m, rest))
    (hx : x ∈ rest) : x ∈ l :=
  (getNextNode_perm h).symm.subset (List.mem_cons_of_mem m hx)

/-- Popping removes exactly one entry. -/
theorem getNextNode_length {l : List (α × Nat)} {m : α × Nat}
    {rest : List (α × Nat)} (h : getNextNode l = some (m, rest)) :
    l.length = rest.length + 1 := by
  simpa using (getNextNode_perm h).length_eq

/-- With non-negative strategies, every accepted aggregate edge cost is
non-negative. -/
theorem getTraversalCost_nonneg {chain : ScorerChain α}
    (hnn : NonNegScorers chain) {e : Edge} {c : α}
    (h : getTraversalCost chain e = some c) : 0 ≤ c := by
  induction chain generalizing c with
  | nil =>
    simp only [getTraversalCost, List.foldr_nil, Option.some.injEq] at h
    exact h ▸ le_refl 0
  | cons sc rest ih =>
    have hnn' : NonNegScorers rest := fun s hs => hnn s (List.mem_cons_of_mem _ hs)
    have hsc' : ∀ e c, sc e = some c → 0 ≤ c := hnn sc (List.mem_cons_self _ _)
    simp only [getTraversalCost, List.foldr_cons] at h
    cases hsc : sc e with
    | none => rw [hsc] at h; exact (Option.noConfusion h)
    | some ec =>
      rw [hsc] at h
      cases hacc : rest.foldr
          (fun sc acc => match sc e, acc with
            | some ec, some total => some (ec + total)
            | _, _ => none) (some 0) with
      | none => rw [hacc] at h; exact (Option.noConfusion h)
      | some total =>
        rw [hacc] at h
        dsimp only at h
        simp only [Option.some.injEq] at h
        subst h
        exact add_nonneg (hsc' e ec hsc) (ih hnn' hacc)

/-- A veto from any single strategy in the chain invalidates the edge
regardless of the other strategies' results. -/
theorem getTraversalCost_veto {chain : ScorerChain α} {sc : Edge → Option α}
    (hmem : sc ∈ chain) {e : Edge} (hnone : sc e = none) :
    getTraversalCost chain e = none := by
  induction chain with
  | nil => cases hmem
  | cons s rest ih =>
    simp only [getTraversalCost, List.foldr_cons]
    rcases List.mem_cons.mp hmem with rfl | hmem'
    · rw [hnone]
    · have hrest : getTraversalCost rest e = none := ih hmem'
      simp only [getTraversalCost] at hrest
      rw [hrest]
      cases s e <;> rfl

/-- With non-negative strategies, every valid path has non-negative cost. -/
theorem ValidPath.nonneg {topo : Topo} {chain : ScorerChain α}
    (hnn : NonNegScorers chain) {u w : Nat} {d : α}
    (hp : ValidPath topo chain u w d) : 0 ≤ d := by
  induction hp with
  | nil => exact le_refl 0
  | cons e he hc hp ih => exact add_nonneg (getTraversalCost_nonneg hnn hc) ih

/-- Extending a valid path by one accepted edge. -/
theorem ValidPath.snoc {topo : Topo} {chain : ScorerChain α} {s u : Nat}
    {d : α} (hp : ValidPath topo chain s u d) {e : Edge} {ec : α}
    (he : e ∈ getEdges topo u) (hc : getTraversalCost chain e = some ec) :
    ValidPath topo chain s e.dst (d + ec) := by
  induction hp with
  | nil v =>
    have := ValidPath.cons e he hc (ValidPath.nil e.dst)
    simpa using this
  | cons e' he' hc' hp' ih =>
    have := ValidPath.cons e' he' hc' (ih he)
    simpa [add_assoc] using this

/-- Reading a just-set in-range position. -/
theorem getD_set_self {β : Type} {l : List β} {i : Nat} {a d : β}
    (h : i < l.length) : (l.set i a).getD i d = a := by
  simp [List.getD_eq_getElem?_getD, List.getElem?_set_self h]

/-- Reading another position after a set. -/
theorem getD_set_ne {β : Type} {l : List β} {i j : Nat} (h : i ≠ j)
    (a d : β) : (l.set i a).getD j d = l.getD j d := by
  simp [List.getD_eq_getElem?_getD, List.getElem?_set_ne h]

/-- Marking an unvisited in-range node visited lowers the unvisited count by
one. -/
theorem count_false_set_true {l : List Bool} {i : Nat} (h : i < l.length)
    (hf : l.getD i false = false) :
    (l.set i true).count false + 1 = l.count false := by
  induction l generalizing i with
  | nil => cases h
  | cons b bs ih =>
    cases i with
    | zero =>
      simp only [List.getD_cons_zero] at hf
      subst hf
      simp [List.count_cons]
    | succ j =>
      have hj : j < bs.length := Nat.lt_of_succ_lt_succ h
      have hf' : bs.getD j false = false := by
        simpa [List.getD_cons_succ] using hf
      have := ih hj hf'
      simp only [List.set_cons_succ, List.count_cons]
      omega

/-- `relaxEdge` never touches the `visited` flags. -/
theorem relaxEdge_visited (chain : ScorerChain α) (du : α) (c : SearchState α)
    (e : Edge) : (relaxEdge chain du c e).visited = c.visited := by
  unfold relaxEdge
  cases getTraversalCost chain e with
  | none => rfl
  | some ec =>
    dsimp only
    split <;> rfl

/-- `relaxEdge` never touches the iteration counter. -/
theorem relaxEdge_iterations (chain : ScorerChain α) (du : α)
    (c : SearchState α) (e : Edge) :
    (relaxEdge chain du c e).iterations = c.iterations := by
  unfold relaxEdge
  cases getTraversalCost chain e with
  | none => rfl
  | some ec =>
    dsimp only
    split <;> rfl

/-- `relaxEdge` never touches the termination flag. -/
theorem relaxEdge_done (chain : ScorerChain α) (du : α) (c : SearchState α)
    (e : Edge) : (relaxEdge chain du c e).done = c.done := by
  unfold relaxEdge
  cases getTraversalCost chain e with
  | none => rfl
  | some ec =>
    dsimp only
    split <;> rfl

/-- `relaxEdge` preserves the cost-array length. -/
theorem relaxEdge_best_length (chain : ScorerChain α) (du : α)
    (c : SearchState α) (e : Edge) :
    (relaxEdge chain du c e).best_cost.length = c.best_cost.length := by
  unfold relaxEdge
  cases getTraversalCost chain e with
  | none => rfl
  | some ec =>
    dsimp only
    split
    · simp
    · rfl

/-- `relaxEdge` adds at most one queue entry. -/
theorem relaxEdge_queue_length (chain : ScorerChain α) (du : α)
    (c : SearchState α) (e : Edge) :
    (relaxEdge chain du c e).queue.length ≤ c.queue.length + 1 := by
  unfold relaxEdge
  cases getTraversalCost chain e with
  | none => exact Nat.le_succ _
  | some ec =>
    dsimp only
    split
    · simp [addNode]
    · exact Nat.le_succ _

/-- Relaxing an edge list never touches the `visited` flags. -/
theorem foldl_relax_visited (chain : ScorerChain α) (du : α)
    (es : List Edge) (c : SearchState α) :
    (es.foldl (relaxEdge chain du) c).visited = c.visited := by
  induction es generalizing c with
  | nil => rfl
  | cons e es ih => rw [List.foldl_cons, ih, relaxEdge_visited]

/-- Relaxing an edge list never touches the iteration counter. -/
theorem foldl_relax_iterations (chain : ScorerChain α) (du : α)
    (es : List Edge) (c : SearchState α) :
    (es.foldl (relaxEdge chain du) c).iterations = c.iterations := by
  induction es generalizing c with
  | nil => rfl
  | cons e es ih => rw [List.foldl_cons, ih, relaxEdge_iterations]

/-- Relaxing an edge list never touches the termination flag. -/
theorem foldl_relax_done (chain : ScorerChain α) (du : α)
    (es : List Edge) (c : SearchState α) :
    (es.foldl (relaxEdge chain du) c).done = c.done := by
  induction es generalizing c with
  | nil => rfl
  | cons e es ih => rw [List.foldl_cons, ih, relaxEdge_done]

/-- Relaxing an edge list preserves the cost-array length. -/
theorem foldl_relax_best_length (chain : ScorerChain α) (du : α)
    (es : List Edge) (c : SearchState α) :
    (es.foldl (relaxEdge chain du) c).best_cost.length = c.best_cost.length := by
  induction es generalizing c with
  | nil => rfl
  | cons e es ih => rw [List.foldl_cons, ih, relaxEdge_best_length]

/-- Relaxing an edge list adds at most one queue entry per edge. -/
theorem foldl_relax_queue_length (chain : ScorerChain α) (du : α)
    (es : List Edge) (c : SearchState α) :
    (es.foldl (relaxEdge chain du) c).queue.length ≤
      c.queue.length + es.length := by
  induction es generalizing c with
  | nil => exact Nat.le_refl _
  | cons e es ih =>
    rw [List.foldl_cons]
    calc (es.foldl (relaxEdge chain du) (relaxEdge chain du c e)).queue.length
        ≤ (relaxEdge chain du c e).queue.length + es.length := ih _
      _ ≤ c.queue.length + 1 + es.length :=
          Nat.add_le_add_right (relaxEdge_queue_length chain du c e) _
      _ = c.queue.length + (e :: es).length := by simp [Nat.add_assoc, Nat.add_comm 1]

/-- Case analysis on one pass of the search loop: to prove any property of
`step`'s result it suffices to prove it for each of the eight branches. -/
theorem step_rec {topo : Topo} {chain : ScorerChain α} {cap goal : Nat}
    {c : SearchState α} {P : SearchState α → Prop}
    (hdone : c.done.isSome = true → P c)
    (hexh : c.done = none → getNextNode c.queue = none →
      P { c with done := some .exhausted })
    (hcap : ∀ top rest, c.done = none → getNextNode c.queue = some (top, rest) →
      cap ≠ 0 → cap ≤ c.iterations → P { c with done := some .iterLimit })
    (hvis : ∀ top rest, c.done = none → getNextNode c.queue = some (top, rest) →
      ¬(cap ≠ 0 ∧ cap ≤ c.iterations) → c.visited.getD top.2 false = true →
      P { c with queue := rest, iterations := c.iterations + 1 })
    (hstale : ∀ top rest, c.done = none → getNextNode c.queue = some (top, rest) →
      ¬(cap ≠ 0 ∧ cap ≤ c.iterations) → c.visited.getD top.2 false = false →
      isStale c.best_cost top.2 top.1 = true →
      P { c with queue := rest, iterations := c.iterations + 1 })
    (hgoalf : ∀ top rest, c.done = none → getNextNode c.queue = some (top, rest) →
      ¬(cap ≠ 0 ∧ cap ≤ c.iterations) → c.visited.getD top.2 false = false →
      isStale c.best_cost top.2 top.1 = false → top.2 = goal →
      P { c with
        visited := c.visited.set top.2 true
        queue := rest
        iterations := c.iterations + 1
        done := some .goalFound })
    (hnoc : ∀ top rest, c.done = none → getNextNode c.queue = some (top, rest) →
      ¬(cap ≠ 0 ∧ cap ≤ c.iterations) → c.visited.getD top.2 false = false →
      isStale c.best_cost top.2 top.1 = false → top.2 ≠ goal →
      c.best_cost.getD top.2 none = none →
      P { c with
        visited := c.visited.set top.2 true
        queue := rest
        iterations := c.iterations + 1 })
    (hproc : ∀ top rest du, c.done = none →
      getNextNode c.queue = some (top, rest) →
      ¬(cap ≠ 0 ∧ cap ≤ c.iterations) → c.visited.getD top.2 false = false →
      isStale c.best_cost top.2 top.1 = false → top.2 ≠ goal →
      c.best_cost.getD top.2 none = some du →
      P ((getEdges topo top.2).foldl (relaxEdge chain du)
        { c with
          visited := c.visited.set top.2 true
          queue := rest
          iterations := c.iterations + 1 })) :
    P (step topo chain cap goal c) := by
  unfold step
  by_cases hd : c.done.isSome
  · rw [if_pos hd]
    exact hdone hd
  · rw [if_neg hd]
    have hdn : c.done = none := Option.not_isSome_iff_eq_none.mp hd
    cases hq : getNextNode c.queue with
    | none => exact hexh hdn hq
    | some pr =>
      obtain ⟨top, rest⟩ := pr
      dsimp only
      by_cases hc2 : cap ≠ 0 ∧ cap ≤ c.iterations
      · rw [if_pos hc2]
        exact hcap top rest hdn hq hc2.1 hc2.2
      · rw [if_neg hc2]
        by_cases hv : c.visited.getD top.2 false = true
        · rw [if_pos hv]
          exact hvis top rest hdn hq hc2 hv
        · rw [if_neg hv]
          have hv' : c.visited.getD top.2 false = false :=
            Bool.eq_false_iff.mpr hv
          by_cases hs : isStale c.best_cost top.2 top.1 = true
          · rw [if_pos hs]
            exact hstale top rest hdn hq hc2 hv' hs
          · rw [if_neg hs]
            have hs' : isStale c.best_cost top.2 top.1 = false :=
              Bool.eq_false_iff.mpr hs
            by_cases hg : top.2 = goal
            · rw [if_pos hg]
              exact hgoalf top rest hdn hq hc2 hv' hs' hg
            · rw [if_neg hg]
              cases hb : c.best_cost.getD top.2 none with
              | none => exact hnoc top rest hdn hq hc2 hv' hs' hg hb
              | some du => exact hproc top rest du hdn hq hc2 hv' hs' hg hb

/-- A finished state is a fixpoint of the loop. -/
theorem step_of_done {topo : Topo} {chain : ScorerChain α} {cap goal : Nat}
    {c : SearchState α} (h : c.done.isSome = true) :
    step topo chain cap goal c = c := by
  unfold step
  rw [if_pos h]

/-- A finished state is a fixpoint of any number of loop passes. -/
theorem iterate_step_of_done {topo : Topo} {chain : ScorerChain α}
    {cap goal : Nat} {c : SearchState α} (h : c.done.isSome = true) (k : Nat) :
    (step topo chain cap goal)^[k] c = c := by
  induction k with
  | zero => rfl
  | succ n ih => rw [Function.iterate_succ_apply, step_of_done h, ih]

/-- One loop pass preserves the length of the `visited` array. -/
theorem step_visited_length (topo : Topo) (chain : ScorerChain α)
    (cap goal : Nat) (c : SearchState α) :
    (step topo chain cap goal c).visited.length = c.visited.length := by
  refine step_rec (P := fun s => s.visited.length = c.visited.length)
    ?_ ?_ ?_ ?_ ?_ ?_ ?_ ?_
  · intro _; rfl
  · intro _ _; rfl
  · intro top rest _ _ _ _; rfl
  · intro top rest _ _ _ _; rfl
  · intro top rest _ _ _ _ _; rfl
  · intro top rest _ _ _ _ _ _; simp
  · intro top rest _ _ _ _ _ _ _; simp
  · intro top rest du _ _ _ _ _ _ _
    rw [foldl_relax_visited]
    simp

/-- One loop pass preserves the length of the cost array. -/
theorem step_best_length (topo : Topo) (chain : ScorerChain α)
    (cap goal : Nat) (c : SearchState α) :
    (step topo chain cap goal c).best_cost.length = c.best_cost.length := by
  refine step_rec (P := fun s => s.best_cost.length = c.best_cost.length)
    ?_ ?_ ?_ ?_ ?_ ?_ ?_ ?_
  · intro _; rfl
  · intro _ _; rfl
  · intro top rest _ _ _ _; rfl
  · intro top rest _ _ _ _; rfl
  · intro top rest _ _ _ _ _; rfl
  · intro top rest _ _ _ _ _ _; rfl
  · intro top rest _ _ _ _ _ _ _; rfl
  · intro top rest du _ _ _ _ _ _ _
    rw [foldl_relax_best_length]

/-- The out-degree of an in-range node is at most the total edge count. -/
theorem getEdges_length_le {topo : Topo} {u : Nat} (h : u < topo.length) :
    (getEdges topo u).length ≤ totalEdges topo := by
  have hget : getEdges topo u = topo.get ⟨u, h⟩ := by
    simp [getEdges, List.getD_eq_getElem?_getD, List.getElem?_eq_getElem h]
  rw [hget]
  exact List.le_sum_of_mem
    (List.mem_map.mpr ⟨topo.get ⟨u, h⟩, List.get_mem topo u h, rfl⟩)

/-- A loop pass that does not exit the loop strictly decreases the
termination measure. -/
theorem step_work_lt {topo : Topo} {chain : ScorerChain α} {cap goal : Nat}
    {c : SearchState α} (hlen : c.visited.length = topo.length)
    (hdn : (step topo chain cap goal c).done = none) :
    searchWork topo (step topo chain cap goal c) < searchWork topo c := by
  revert hdn
  refine step_rec
    (P := fun s => s.done = none → searchWork topo s < searchWork topo c)
    ?_ ?_ ?_ ?_ ?_ ?_ ?_ ?_
  · intro hd h
    rw [h] at hd
    cases hd
  · intro _ _ h
    cases h
  · intro top rest _ _ _ _ h
    cases h
  · intro top rest _ hq _ _ _
    have := getNextNode_length hq
    unfold searchWork
    dsimp only
    omega
  · intro top rest _ hq _ _ _ _
    have := getNextNode_length hq
    unfold searchWork
    dsimp only
    omega
  · intro top rest _ _ _ _ _ _ h
    cases h
  · intro top rest _ hq _ hv _ _ _ _
    have hql := getNextNode_length hq
    unfold searchWork
    dsimp only
    by_cases hu : top.2 < c.visited.length
    · have hcnt := count_false_set_true hu hv
      have hmul : (c.visited.set top.2 true).count false * (totalEdges topo + 1)
          + (totalEdges topo + 1)
          = c.visited.count false * (totalEdges topo + 1) := by
        rw [← hcnt]
        ring
      omega
    · rw [List.set_eq_of_length_le (Nat.le_of_not_lt hu)]
      omega
  · intro top rest du _ hq _ hv _ _ _ _
    have hql := getNextNode_length hq
    unfold searchWork
    rw [foldl_relax_visited]
    dsimp only
    by_cases hu : top.2 < c.visited.length
    · have hcnt := count_false_set_true hu hv
      have hmul : (c.visited.set top.2 true).count false * (totalEdges topo + 1)
          + (totalEdges topo + 1)
          = c.visited.count false * (totalEdges topo + 1) := by
        rw [← hcnt]
        ring
      have hdeg : (getEdges topo top.2).length ≤ totalEdges topo :=
        getEdges_length_le (hlen ▸ hu)
      have hqlen := foldl_relax_queue_length chain du (getEdges topo top.2)
        { c with
          visited := c.visited.set top.2 true
          queue := rest
          iterations := c.iterations + 1 }
      dsimp only at hqlen
      omega
    · have hout : getEdges topo top.2 = [] := by
        have : topo.length ≤ top.2 := by omega
        simp [getEdges, List.getD_eq_getElem?_getD, List.getElem?_eq_none this]
      rw [List.set_eq_of_length_le (Nat.le_of_not_lt hu), hout]
      simp only [List.foldl_nil]
      omega

/-- Enough loop passes always finish the search. -/
theorem iterate_done_of_work_lt {topo : Topo} {chain : ScorerChain α}
    {cap goal : Nat} :
    ∀ (k : Nat) (c : SearchState α), searchWork topo c < k →
      c.visited.length = topo.length →
      (((step topo chain cap goal)^[k]) c).done.isSome = true := by
  intro k
  induction k with
  | zero => intro c hw _; omega
  | succ n ih =>
    intro c hw hlen
    rw [Function.iterate_succ_apply]
    by_cases hd : (step topo chain cap goal c).done.isSome = true
    · rw [iterate_step_of_done hd]
      exact hd
    · have hdn : (step topo chain cap goal c).done = none :=
        Option.not_isSome_iff_eq_none.mp (by simpa using hd)
      have hwork := step_work_lt hlen hdn
      exact ih (step topo chain cap goal c) (by omega)
        ((step_visited_length topo chain cap goal c).trans hlen)

/-- The traversal always terminates with a recorded outcome: the iterate
count of `findShortestGraphTraversal` provably suffices. -/
theorem traversal_done_isSome (topo : Topo) (chain : ScorerChain α)
    (cap start goal : Nat) :
    (findShortestGraphTraversal (α := α) topo chain cap start goal).done.isSome
      = true := by
  unfold findShortestGraphTraversal
  apply iterate_done_of_work_lt
  · unfold searchFuel
    omega
  · simp [initialSearchState]

/-- Everything is at most `+infinity`. -/
theorem costLE_none_right (a : Option α) : costLE a none = true := by
  cases a <;> rfl

/-- `costLE` on two finite costs is the cost order. -/
theorem costLE_some_some {x y : α} : costLE (some x) (some y) = true ↔ x ≤ y := by
  simp [costLE]

/-- `costLE` is reflexive. -/
theorem costLE_refl (a : Option α) : costLE a a = true := by
  cases a with
  | none => rfl
  | some x => simp [costLE]

/-- `costLE` is transitive. -/
theorem costLE_trans {a b c : Option α} (h1 : costLE a b = true)
    (h2 : costLE b c = true) : costLE a c = true := by
  cases c with
  | none => exact costLE_none_right a
  | some z =>
    cases b with
    | none => simp [costLE] at h2
    | some y =>
      cases a with
      | none => simp [costLE] at h1
      | some x =>
        rw [costLE_some_some] at h1 h2 ⊢
        exact le_trans h1 h2

/-- A cost at most a finite bound is finite and below the bound. -/
theorem costLE_some_elim {a : Option α} {y : α} (h : costLE a (some y) = true) :
    ∃ x, a = some x ∧ x ≤ y := by
  cases a with
  | none => simp [costLE] at h
  | some x => exact ⟨x, rfl, (costLE_some_some).mp h⟩

/-- An invalidated edge is skipped entirely during relaxation: the state is
untouched. -/
theorem relaxEdge_skip {chain : ScorerChain α} {e : Edge} (du : α)
    (c : SearchState α) (hc : getTraversalCost chain e = none) :
    relaxEdge chain du c e = c := by
  unfold relaxEdge
  rw [hc]

/-- Relaxing one edge either leaves the state untouched or strictly improves
the target's recorded cost to `du + ec` and reinserts the target. -/
theorem relaxEdge_cases (chain : ScorerChain α) (du : α) (c : SearchState α)
    (e : Edge) :
    (relaxEdge chain du c e = c ∧
      ∀ ec, getTraversalCost chain e = some ec →
        ∃ b, c.best_cost.getD e.dst none = some b ∧ b ≤ du + ec) ∨
    ∃ ec, getTraversalCost chain e = some ec ∧
      (∀ b, c.best_cost.getD e.dst none = some b → du + ec < b) ∧
      relaxEdge chain du c e =
        { c with
          best_cost := c.best_cost.set e.dst (some (du + ec))
          parent_edge := c.parent_edge.set e.dst (some e)
          queue := addNode (du + ec) e.dst c.queue } := by
  unfold relaxEdge
  cases hc : getTraversalCost chain e with
  | none =>
    left
    refine ⟨rfl, ?_⟩
    intro ec hc'
    exact Option.noConfusion hc'
  | some ec =>
    dsimp only
    cases hb : c.best_cost.getD e.dst none with
    | none =>
      right
      refine ⟨ec, rfl, ?_, rfl⟩
      intro b hb'
      exact Option.noConfusion hb'
    | some b =>
      by_cases hlt : du + ec < b
      · right
        refine ⟨ec, rfl, ?_, ?_⟩
        · intro b' hb'
          injection hb' with hbb
          rw [← hbb]
          exact hlt
        · dsimp only
          rw [decide_eq_true hlt]
          simp
      · left
        constructor
        · dsimp only
          rw [decide_eq_false hlt]
          simp
        · intro ec' hc'
          injection hc' with hee
          exact ⟨b, rfl, by rw [← hee]; exact le_of_not_lt hlt⟩

/-- Relaxing one edge never raises any recorded cost. -/
theorem relaxEdge_best_mono (chain : ScorerChain α) (du : α)
    (c : SearchState α) (e : Edge) (v : Nat) :
    costLE ((relaxEdge chain du c e).best_cost.getD v none)
      (c.best_cost.getD v none) = true := by
  rcases relaxEdge_cases chain du c e with ⟨h, _⟩ | ⟨ec, hc, hlt, h⟩
  · rw [h]
    exact costLE_refl _
  · rw [h]
    by_cases hv : e.dst = v
    · subst hv
      by_cases hr : e.dst < c.best_cost.length
      · rw [getD_set_self hr]
        cases hb : c.best_cost.getD e.dst none with
        | none => exact costLE_none_right _
        | some b => exact costLE_some_some.mpr (hlt b hb).le
      · rw [List.set_eq_of_length_le (Nat.le_of_not_lt hr)]
        exact costLE_refl _
    · rw [getD_set_ne hv]
      exact costLE_refl _

/-- Relaxing an edge list never raises any recorded cost. -/
theorem foldl_relax_best_mono (chain : ScorerChain α) (du : α)
    (es : List Edge) (c : SearchState α) (v : Nat) :
    costLE ((es.foldl (relaxEdge chain du) c).best_cost.getD v none)
      (c.best_cost.getD v none) = true := by
  induction es generalizing c with
  | nil => exact costLE_refl _
  | cons e es ih =>
    rw [List.foldl_cons]
    exact costLE_trans (ih _) (relaxEdge_best_mono chain du c e v)

/-- Cut argument: while the goal is unfinalized, every valid path from a
finalized node `v` to an unfinalized node `w` is covered by some queue entry
costing at most `v`'s recorded cost plus the path cost. -/
theorem SearchInv.cut {topo : Topo} {chain : ScorerChain α}
    {start goal : Nat} {c : SearchState α}
    (inv : SearchInv topo chain start goal c) (hnn : NonNegScorers chain)
    (hgu : c.visited.getD goal false = false) :
    ∀ {v w : Nat} {dp : α}, ValidPath topo chain v w dp →
      c.visited.getD v false = true → c.visited.getD w false = false →
      ∃ p ∈ c.queue, ∃ dv, c.best_cost.getD v none = some dv ∧
        p.1 ≤ dv + dp := by
  intro v w dp hp
  induction hp with
  | nil u =>
    intro h1 h2
    rw [h1] at h2
    cases h2
  | cons e he hc hp ih =>
    intro hv hw
    obtain ⟨du', ddst, hbu, hbdst, hle⟩ := inv.relaxed hgu _ hv e he _ hc
    have h0 : (0 : α) ≤ _ := hp.nonneg hnn
    by_cases hvd : c.visited.getD e.dst false = true
    · obtain ⟨p, hpq, dv2, hbdst2, hple⟩ := ih hvd hw
      rw [hbdst] at hbdst2
      injection hbdst2 with hdd
      refine ⟨p, hpq, du', hbu, ?_⟩
      calc p.1 ≤ dv2 + _ := hple
        _ = ddst + _ := by rw [hdd]
        _ ≤ (du' + _) + _ := add_le_add_right hle _
        _ = du' + (_ + _) := add_assoc _ _ _
    · have hvd' : c.visited.getD e.dst false = false := Bool.eq_false_iff.mpr hvd
      refine ⟨(ddst, e.dst), inv.inqueue _ _ hvd' hbdst, du', hbu, ?_⟩
      calc ddst ≤ du' + _ := hle
        _ ≤ (du' + _) + _ := le_add_of_nonneg_right h0
        _ = du' + (_ + _) := add_assoc _ _ _

/-- While the goal is unfinalized, every valid path from the start to an
unfinalized node is covered by a queue entry costing at most the path's
cost. -/
theorem SearchInv.cover {topo : Topo} {chain : ScorerChain α}
    {start goal : Nat} {c : SearchState α}
    (inv : SearchInv topo chain start goal c) (hnn : NonNegScorers chain)
    (hgu : c.visited.getD goal false = false) {w : Nat} {d' : α}
    (hw : c.visited.getD w false = false)
    (hp : ValidPath topo chain start w d') :
    ∃ p ∈ c.queue, p.1 ≤ d' := by
  obtain ⟨d0, hbs0, hd0⟩ := inv.hstart
  by_cases hs : c.visited.getD start false = true
  · obtain ⟨p, hpq, dv, hbs, hple⟩ := inv.cut hnn hgu hp hs hw
    rw [hbs0] at hbs
    injection hbs with hdd
    refine ⟨p, hpq, ?_⟩
    calc p.1 ≤ dv + d' := hple
      _ = d0 + d' := by rw [hdd]
      _ ≤ 0 + d' := add_le_add_right hd0 d'
      _ = d' := zero_add d'
  · have hs' : c.visited.getD start false = false := Bool.eq_false_iff.mpr hs
    exact ⟨(d0, start), inv.inqueue _ _ hs' hbs0,
      le_trans hd0 (hp.nonneg hnn)⟩

/-- A non-stale pop of an unfinalized node carries that node's true
shortest-path cost. -/
theorem SearchInv.popped_least {topo : Topo} {chain : ScorerChain α}
    {start goal : Nat} {c : SearchState α} {top : α × Nat}
    {rest : List (α × Nat)} {du : α}
    (inv : SearchInv topo chain start goal c) (hnn : NonNegScorers chain)
    (hdn : c.done = none) (hq : getNextNode c.queue = some (top, rest))
    (hv : c.visited.getD top.2 false = false)
    (hb : c.best_cost.getD top.2 none = some du) :
    IsLeastCost topo chain start top.2 du := by
  refine ⟨inv.attain _ _ hb, ?_⟩
  intro d' hp
  have hgu : c.visited.getD goal false = false := by
    rcases h : c.visited.getD goal false with _ | _
    · rfl
    · exact absurd (hdn ▸ inv.hgoal.mp h) (by simp)
  obtain ⟨p, hpq, hple⟩ := inv.cover hnn hgu hv hp
  obtain ⟨d2, hb2, hd2⟩ := inv.q_ge top (getNextNode_mem hq)
  rw [hb] at hb2
  injection hb2 with hdd
  calc du = d2 := hdd
    _ ≤ top.1 := hd2
    _ ≤ p.1 := getNextNode_min hq p hpq
    _ ≤ d' := hple

/-- While the loop is still running, the goal is not yet finalized. -/
theorem SearchInv.goal_unvisited {topo : Topo} {chain : ScorerChain α}
    {start goal : Nat} {c : SearchState α}
    (inv : SearchInv topo chain start goal c) (hdn : c.done = none) :
    c.visited.getD goal false = false := by
  rcases h : c.visited.getD goal false with _ | _
  · rfl
  · exact absurd (hdn ▸ inv.hgoal.mp h) (by simp)

/-- Relaxing one accepted edge of the popped node `u` preserves the
relaxation invariant and leaves the edge's target at a recorded cost of at
most `du + ec`. -/
theorem RelaxInv.relax {topo : Topo} {chain : ScorerChain α} {start : Nat}
    {base s : SearchState α} {u : Nat} {du : α}
    (_hnn : NonNegScorers chain) (hwf : GraphWF topo)
    (hblen : base.best_cost.length = topo.length)
    (hsettled : ∀ v, base.visited.getD v false = true →
      ∃ d, base.best_cost.getD v none = some d ∧
        IsLeastCost topo chain start v d)
    (hdu : ValidPath topo chain start u du)
    (inv : RelaxInv topo chain start base s) {e : Edge}
    (he : e ∈ getEdges topo u) :
    RelaxInv topo chain start base (relaxEdge chain du s e) ∧
    ∀ ec, getTraversalCost chain e = some ec →
      ∃ dv, (relaxEdge chain du s e).best_cost.getD e.dst none = some dv ∧
        dv ≤ du + ec := by
  rcases relaxEdge_cases chain du s e with ⟨hid, hbnd⟩ | ⟨ec, hc, hlt, hupd⟩
  · rw [hid]
    exact ⟨inv, hbnd⟩
  · have hwrng : e.dst < topo.length := hwf u e he
    have hrng : e.dst < s.best_cost.length := by
      rw [inv.hlen_b, hblen]
      exact hwrng
    have hcand : ValidPath topo chain start e.dst (du + ec) := hdu.snoc he hc
    have hvw : s.visited.getD e.dst false = false := by
      rcases hdst : s.visited.getD e.dst false with _ | _
      · rfl
      · exfalso
        obtain ⟨d, hbd, hleast⟩ := hsettled e.dst (inv.hvis ▸ hdst)
        have hkeep := inv.keep e.dst hdst
        have h1 : d ≤ du + ec := hleast.2 _ hcand
        have h2 : du + ec < d := hlt d (hkeep.trans hbd)
        exact absurd (lt_of_le_of_lt h1 h2) (lt_irrefl d)
    rw [hupd]
    constructor
    · constructor
      · exact inv.hvis
      · simpa using inv.hlen_b
      · intro v d hd
        by_cases hvd : e.dst = v
        · subst hvd
          rw [getD_set_self hrng] at hd
          injection hd with hd
          rw [← hd]
          exact hcand
        · rw [getD_set_ne hvd] at hd
          exact inv.attain v d hd
      · intro p hp
        rcases List.mem_append.mp hp with hp' | hp'
        · exact inv.q_attain p hp'
        · simp only [addNode, List.mem_singleton] at hp'
          rw [hp']
          exact hcand
      · intro p hp
        rcases List.mem_append.mp hp with hp' | hp'
        · obtain ⟨d, hd, hdle⟩ := inv.q_ge p hp'
          by_cases hvd : e.dst = p.2
          · rw [← hvd] at hd
            have := hlt d hd
            refine ⟨du + ec, ?_, ?_⟩
            · rw [← hvd, getD_set_self hrng]
            · exact le_trans this.le hdle
          · exact ⟨d, by rw [getD_set_ne hvd]; exact hd, hdle⟩
        · simp only [addNode, List.mem_singleton] at hp'
          rw [hp']
          exact ⟨du + ec, by rw [getD_set_self hrng], le_refl _⟩
      · intro v d hvv hd
        by_cases hvd : e.dst = v
        · subst hvd
          rw [getD_set_self hrng] at hd
          injection hd with hd
          rw [← hd]
          exact List.mem_append_right _ (by simp [addNode])
        · rw [getD_set_ne hvd] at hd
          exact List.mem_append_left _ (inv.inqueue v d hvv hd)
      · obtain ⟨d0, hb0, hd0⟩ := inv.hstart
        by_cases hvd : e.dst = start
        · refine ⟨du + ec, by rw [← hvd] at hb0 ⊢; rw [getD_set_self hrng], ?_⟩
          rw [← hvd] at hb0
          exact le_trans (hlt d0 hb0).le hd0
        · exact ⟨d0, by rw [getD_set_ne hvd]; exact hb0, hd0⟩
      · intro v hvv
        by_cases hvd : e.dst = v
        · rw [← hvd] at hvv
          rw [hvw] at hvv
          cases hvv
        · rw [getD_set_ne hvd]
          exact inv.keep v hvv
      · intro v
        by_cases hvd : e.dst = v
        · subst hvd
          rw [getD_set_self hrng]
          rcases hbb : base.best_cost.getD e.dst none with _ | y
          · exact costLE_none_right _
          · have := inv.mono e.dst
            rw [hbb] at this
            obtain ⟨b, hsb, hby⟩ := costLE_some_elim this
            exact costLE_some_some.mpr (le_trans (hlt b hsb).le hby)
        · rw [getD_set_ne hvd]
          exact inv.mono v
      · intro p hp
        rcases List.mem_append.mp hp with hp' | hp'
        · exact inv.q_rng p hp'
        · simp only [addNode, List.mem_singleton] at hp'
          rw [hp']
          exact hwrng
    · intro ec' hc'
      rw [hc] at hc'
      injection hc' with hee
      rw [← hee]
      exact ⟨du + ec, by rw [getD_set_self hrng], le_refl _⟩

/-- Relaxing all outgoing edges of the popped node preserves the relaxation
invariant, and afterwards every accepted outgoing edge's target sits at a
recorded cost of at most `du` plus that edge's cost. -/
theorem RelaxInv.relaxAll {topo : Topo} {chain : ScorerChain α} {start : Nat}
    {base : SearchState α} {u : Nat} {du : α}
    (hnn : NonNegScorers chain) (hwf : GraphWF topo)
    (hblen : base.best_cost.length = topo.length)
    (hsettled : ∀ v, base.visited.getD v false = true →
      ∃ d, base.best_cost.getD v none = some d ∧
        IsLeastCost topo chain start v d)
    (hdu : ValidPath topo chain start u du) :
    ∀ (es : List Edge), (∀ e ∈ es, e ∈ getEdges topo u) →
      ∀ {s : SearchState α}, RelaxInv topo chain start base s →
      RelaxInv topo chain start base (es.foldl (relaxEdge chain du) s) ∧
      ∀ e ∈ es, ∀ ec, getTraversalCost chain e = some ec →
        ∃ dv, (es.foldl (relaxEdge chain du) s).best_cost.getD e.dst none
            = some dv ∧ dv ≤ du + ec := by
  intro es
  induction es with
  | nil =>
    intro _ s inv
    exact ⟨inv, by simp⟩
  | cons e es ih =>
    intro hes s inv
    have he : e ∈ getEdges topo u := hes e (List.mem_cons_self _ _)
    obtain ⟨inv', hbound⟩ := inv.relax hnn hwf hblen hsettled hdu he
    obtain ⟨invf, hrest⟩ :=
      ih (fun e' he' => hes e' (List.mem_cons_of_mem _ he')) inv'
    rw [List.foldl_cons]
    refine ⟨invf, ?_⟩
    intro e' he' ec hc
    rcases List.mem_cons.mp he' with rfl | he''
    · obtain ⟨dv, hdv, hle⟩ := hbound ec hc
      have hmono :=
        foldl_relax_best_mono chain du es (relaxEdge chain du s e') e'.dst
      rw [hdv] at hmono
      obtain ⟨dv', hdv', hle'⟩ := costLE_some_elim hmono
      exact ⟨dv', hdv', le_trans hle' hle⟩
    · exact hrest e' he'' ec hc

/-- Reading a replicated list. -/
theorem getD_replicate {β : Type} {n i : Nat} {b d : β} :
    (List.replicate n b).getD i d = if i < n then b else d := by
  rw [List.getD_eq_getElem?_getD, List.getElem?_replicate]
  split <;> rfl

/-- The recorded costs of the freshly initialised state: `0` at the start
node, `+infinity` everywhere else. -/
theorem initial_best {topo : Topo} {start : Nat} (hs : start < topo.length)
    (v : Nat) :
    (initialSearchState (α := α) topo start).best_cost.getD v none =
      if v = start then some 0 else none := by
  unfold initialSearchState
  dsimp only
  by_cases hv : v = start
  · subst hv
    rw [if_pos rfl, getD_set_self (by simpa using hs)]
  · rw [if_neg hv, getD_set_ne (fun h => hv h.symm), getD_replicate]
    simp

/-- The loop invariant holds for the freshly initialised state. -/
theorem SearchInv_init {topo : Topo} {chain : ScorerChain α}
    {start goal : Nat} (hs : start < topo.length) :
    SearchInv topo chain start goal (initialSearchState topo start) := by
  have hvisited : ∀ v,
      (initialSearchState (α := α) topo start).visited.getD v false = false := by
    intro v
    unfold initialSearchState
    dsimp only
    rw [getD_replicate]
    simp
  have hqueue : (initialSearchState (α := α) topo start).queue = [(0, start)] := rfl
  constructor
  · simp [initialSearchState]
  · simp [initialSearchState]
  · intro v d hd
    rw [initial_best hs] at hd
    by_cases hv : v = start
    · rw [if_pos hv] at hd
      injection hd with hd
      rw [hv, ← hd]
      exact ValidPath.nil start
    · rw [if_neg hv] at hd
      cases hd
  · intro p hp
    rw [hqueue] at hp
    simp only [List.mem_singleton] at hp
    rw [hp]
    exact ValidPath.nil start
  · intro p hp
    rw [hqueue] at hp
    simp only [List.mem_singleton] at hp
    rw [hp]
    exact ⟨0, by rw [initial_best hs]; simp, le_refl _⟩
  · intro v hv
    rw [hvisited v] at hv
    cases hv
  · intro _ v hv
    rw [hvisited v] at hv
    cases hv
  · intro v d hv hd
    rw [initial_best hs] at hd
    by_cases hvs : v = start
    · rw [if_pos hvs] at hd
      injection hd with hd
      rw [hqueue, hvs, ← hd]
      simp
    · rw [if_neg hvs] at hd
      cases hd
  · exact ⟨0, by rw [initial_best hs]; simp, le_refl _⟩
  · rw [hvisited goal]
    simp [initialSearchState]
  · intro h
    simp [initialSearchState] at h
  · intro p hp
    rw [hqueue] at hp
    simp only [List.mem_singleton] at hp
    rw [hp]
    exact hs

/-- One pass of the loop preserves the loop invariant. -/
theorem SearchInv_step {topo : Topo} {chain : ScorerChain α}
    {cap goal start : Nat} {c : SearchState α}
    (hnn : NonNegScorers chain) (hwf : GraphWF topo)
    (inv : SearchInv topo chain start goal c) :
    SearchInv topo chain start goal (step topo chain cap goal c) := by
  refine step_rec (P := fun s => SearchInv topo chain start goal s)
    ?_ ?_ ?_ ?_ ?_ ?_ ?_ ?_
  · intro _
    exact inv
  · -- frontier exhausted
    intro hdn hq
    have hqe : c.queue = [] := getNextNode_eq_none.mp hq
    refine ⟨inv.hlen_v, inv.hlen_b, inv.attain, inv.q_attain, inv.q_ge,
      inv.settled, inv.relaxed, inv.inqueue, inv.hstart, ?_, ?_, inv.q_rng⟩
    · constructor
      · intro h
        exact absurd (hdn ▸ inv.hgoal.mp h) (by simp)
      · intro h
        exact absurd h (by simp)
    · intro _
      exact hqe
  · -- iteration cap reached
    intro top rest hdn hq hc1 hc2
    refine ⟨inv.hlen_v, inv.hlen_b, inv.attain, inv.q_attain, inv.q_ge,
      inv.settled, inv.relaxed, inv.inqueue, inv.hstart, ?_, ?_, inv.q_rng⟩
    · constructor
      · intro h
        exact absurd (hdn ▸ inv.hgoal.mp h) (by simp)
      · intro h
        exact absurd h (by simp)
    · intro h
      exact absurd h (by simp)
  · -- discard: node already finalized
    intro top rest hdn hq hcap hv
    refine ⟨inv.hlen_v, inv.hlen_b, inv.attain, ?_, ?_, inv.settled,
      inv.relaxed, ?_, inv.hstart, inv.hgoal, ?_, ?_⟩
    · intro p hp
      exact inv.q_attain p (getNextNode_rest_subset hq hp)
    · intro p hp
      exact inv.q_ge p (getNextNode_rest_subset hq hp)
    · intro v d hvv hb
      refine getNextNode_mem_rest hq (inv.inqueue v d hvv hb) ?_
      intro heq
      have : v = top.2 := congrArg Prod.snd heq
      rw [this, hv] at hvv
      cases hvv
    · intro h
      exact absurd (hdn ▸ h) (by simp)
    · intro p hp
      exact inv.q_rng p (getNextNode_rest_subset hq hp)
  · -- discard: stale entry
    intro top rest hdn hq hcap hv hstale
    obtain ⟨b, hb, hblt⟩ : ∃ b, c.best_cost.getD top.2 none = some b ∧
        b < top.1 := by
      unfold isStale at hstale
      cases hb : c.best_cost.getD top.2 none with
      | none =>
        rw [hb] at hstale
        cases hstale
      | some b =>
        rw [hb] at hstale
        exact ⟨b, rfl, of_decide_eq_true hstale⟩
    refine ⟨inv.hlen_v, inv.hlen_b, inv.attain, ?_, ?_, inv.settled,
      inv.relaxed, ?_, inv.hstart, inv.hgoal, ?_, ?_⟩
    · intro p hp
      exact inv.q_attain p (getNextNode_rest_subset hq hp)
    · intro p hp
      exact inv.q_ge p (getNextNode_rest_subset hq hp)
    · intro v d hvv hbd
      refine getNextNode_mem_rest hq (inv.inqueue v d hvv hbd) ?_
      intro heq
      have hv2 : v = top.2 := congrArg Prod.snd heq
      have hd1 : d = top.1 := congrArg Prod.fst heq
      rw [hv2] at hbd
      rw [hb] at hbd
      injection hbd with hbd
      rw [← hbd] at hd1
      rw [hd1] at hblt
      exact absurd hblt (lt_irrefl _)
    · intro h
      exact absurd (hdn ▸ h) (by simp)
    · intro p hp
      exact inv.q_rng p (getNextNode_rest_subset hq hp)
  · -- goal popped: terminate successfully
    intro top rest hdn hq hcap hv hstale hg
    have hrng : top.2 < topo.length := inv.q_rng top (getNextNode_mem hq)
    have hvrng : top.2 < c.visited.length := inv.hlen_v ▸ hrng
    obtain ⟨du, hb, hdle⟩ := inv.q_ge top (getNextNode_mem hq)
    have hleast := inv.popped_least hnn hdn hq hv hb
    refine ⟨?_, inv.hlen_b, inv.attain, ?_, ?_, ?_, ?_, ?_, inv.hstart,
      ?_, ?_, ?_⟩
    · simpa using inv.hlen_v
    · intro p hp
      exact inv.q_attain p (getNextNode_rest_subset hq hp)
    · intro p hp
      exact inv.q_ge p (getNextNode_rest_subset hq hp)
    · intro v hvv
      by_cases hvt : v = top.2
      · subst hvt
        exact ⟨du, hb, hleast⟩
      · rw [getD_set_ne (fun h => hvt h.symm)] at hvv
        exact inv.settled v hvv
    · intro hgu
      exfalso
      rw [← hg] at hgu
      rw [getD_set_self hvrng] at hgu
      cases hgu
    · intro v d hvv hbd
      by_cases hvt : v = top.2
      · subst hvt
        rw [getD_set_self hvrng] at hvv
        cases hvv
      · rw [getD_set_ne (fun h => hvt h.symm)] at hvv
        refine getNextNode_mem_rest hq (inv.inqueue v d hvv hbd) ?_
        intro heq
        exact hvt (congrArg Prod.snd heq)
    · rw [← hg, getD_set_self hvrng]
      simp
    · intro h
      exact absurd h (by simp)
    · intro p hp
      exact inv.q_rng p (getNextNode_rest_subset hq hp)
  · -- popped node with no recorded cost: impossible
    intro top rest hdn hq hcap hv hstale hg hb
    obtain ⟨d, hb', _⟩ := inv.q_ge top (getNextNode_mem hq)
    rw [hb] at hb'
    exact Option.noConfusion hb'
  · -- process: finalize the node and relax its outgoing edges
    intro top rest du hdn hq hcap hv hstale hg hb
    have hrng : top.2 < topo.length := inv.q_rng top (getNextNode_mem hq)
    have hvrng : top.2 < c.visited.length := inv.hlen_v ▸ hrng
    have hleast := inv.popped_least hnn hdn hq hv hb
    have hgu := inv.goal_unvisited hdn
    set B : SearchState α :=
      { c with
        visited := c.visited.set top.2 true
        queue := rest
        iterations := c.iterations + 1 } with hB
    have hBvis : B.visited = c.visited.set top.2 true := rfl
    have hBbest : B.best_cost = c.best_cost := rfl
    have hBqueue : B.queue = rest := rfl
    have hBdone : B.done = c.done := rfl
    have hblenB : B.best_cost.length = topo.length := inv.hlen_b
    have hbase : RelaxInv topo chain start B B := by
      constructor
      · rfl
      · rfl
      · intro v d hd
        rw [hBbest] at hd
        exact inv.attain v d hd
      · intro p hp
        rw [hBqueue] at hp
        exact inv.q_attain p (getNextNode_rest_subset hq hp)
      · intro p hp
        rw [hBqueue] at hp
        obtain ⟨d, hd, hdle⟩ := inv.q_ge p (getNextNode_rest_subset hq hp)
        exact ⟨d, by rw [hBbest]; exact hd, hdle⟩
      · intro v d hvv hd
        rw [hBvis] at hvv
        rw [hBbest] at hd
        rw [hBqueue]
        by_cases hvt : v = top.2
        · rw [hvt, getD_set_self hvrng] at hvv
          cases hvv
        · rw [getD_set_ne (fun h => hvt h.symm)] at hvv
          refine getNextNode_mem_rest hq (inv.inqueue v d hvv hd) ?_
          intro heq
          exact hvt (congrArg Prod.snd heq)
      · obtain ⟨d0, h0, hle0⟩ := inv.hstart
        exact ⟨d0, by rw [hBbest]; exact h0, hle0⟩
      · intro v _
        rfl
      · intro v
        exact costLE_refl _
      · intro p hp
        rw [hBqueue] at hp
        exact inv.q_rng p (getNextNode_rest_subset hq hp)
    have hsettled : ∀ v, B.visited.getD v false = true →
        ∃ d, B.best_cost.getD v none = some d ∧
          IsLeastCost topo chain start v d := by
      intro v hvv
      rw [hBvis] at hvv
      rw [hBbest]
      by_cases hvt : v = top.2
      · rw [hvt]
        exact ⟨du, hb, hleast⟩
      · rw [getD_set_ne (fun h => hvt h.symm)] at hvv
        exact inv.settled v hvv
    obtain ⟨invf, hbounds⟩ := RelaxInv.relaxAll hnn hwf hblenB hsettled
      hleast.1 (getEdges topo top.2) (fun e he => he) hbase
    have hfvis : (List.foldl (relaxEdge chain du) B
        (getEdges topo top.2)).visited = c.visited.set top.2 true := by
      rw [foldl_relax_visited, hBvis]
    have hfdone : (List.foldl (relaxEdge chain du) B
        (getEdges topo top.2)).done = none := by
      rw [foldl_relax_done, hBdone]
      exact hdn
    refine ⟨?_, invf.hlen_b.trans hblenB, invf.attain, invf.q_attain,
      invf.q_ge, ?_, ?_, invf.inqueue, invf.hstart, ?_, ?_, invf.q_rng⟩
    · rw [hfvis]
      simpa using inv.hlen_v
    · intro v hvv
      have hvvF := hvv
      rw [hfvis] at hvv
      have hvvB : B.visited.getD v false = true := by
        rw [hBvis]
        exact hvv
      obtain ⟨d, hbd, hl⟩ := hsettled v hvvB
      exact ⟨d, (invf.keep v hvvF).trans hbd, hl⟩
    · intro hgu2 v hvv e he ec hc
      have hvvF := hvv
      rw [hfvis] at hvv
      have hvvB : B.visited.getD v false = true := by
        rw [hBvis]
        exact hvv
      by_cases hvt : v = top.2
      · have he2 : e ∈ getEdges topo top.2 := hvt ▸ he
        obtain ⟨dv, hdv, hdvle⟩ := hbounds e he2 ec hc
        refine ⟨du, dv, ?_, hdv, hdvle⟩
        refine (invf.keep v hvvF).trans ?_
        rw [hBbest, hvt]
        exact hb
      · have hcv : c.visited.getD v false = true := by
          rw [getD_set_ne (fun h => hvt h.symm)] at hvv
          exact hvv
        obtain ⟨du1, dv1, hbu1, hbdst1, hle1⟩ :=
          inv.relaxed hgu v hcv e he ec hc
        have hmono := invf.mono e.dst
        rw [hBbest, hbdst1] at hmono
        obtain ⟨dv2, hdv2, hle2⟩ := costLE_some_elim hmono
        refine ⟨du1, dv2, ?_, hdv2, le_trans hle2 hle1⟩
        refine (invf.keep v hvvF).trans ?_
        rw [hBbest]
        exact hbu1
    · have h1 : (List.foldl (relaxEdge chain du) B
          (getEdges topo top.2)).visited.getD goal false = false := by
        rw [hfvis, getD_set_ne hg]
        exact hgu
      rw [h1, hfdone]
      simp
    · intro h
      rw [hfdone] at h
      cases h


/-- The loop invariant holds after any number of loop passes from the
freshly initialised state. -/
theorem SearchInv_iterate {topo : Topo} {chain : ScorerChain α}
    {cap goal start : Nat} (hnn : NonNegScorers chain) (hwf : GraphWF topo)
    (hs : start < topo.length) (k : Nat) :
    SearchInv topo chain start goal
      ((step topo chain cap goal)^[k] (initialSearchState topo start)) := by
  induction k with
  | zero => exact SearchInv_init hs
  | succ n ih =>
    rw [Function.iterate_succ_apply']
    exact SearchInv_step hnn hwf ih

/-- A traversal that terminated with `goalFound` has finalized the goal at
the true shortest-path cost. -/
theorem traversal_goalFound_least {topo : Topo} {chain : ScorerChain α}
    {cap start goal : Nat} (hnn : NonNegScorers chain) (hwf : GraphWF topo)
    (hs : start < topo.length)
    (hg : (findShortestGraphTraversal topo chain cap start goal).done
      = some .goalFound) :
    ∃ d, (findShortestGraphTraversal topo chain cap start
        goal).best_cost.getD goal none = some d ∧
      IsLeastCost topo chain start goal d := by
  have inv := @SearchInv_iterate α _ topo chain cap goal start hnn hwf hs
    (searchFuel topo (initialSearchState (α := α) topo start))
  unfold findShortestGraphTraversal at hg ⊢
  exact inv.settled goal (inv.hgoal.mpr hg)

/-- A traversal that terminated with `exhausted` proves the goal has no
valid path from the start. -/
theorem traversal_exhausted_unreachable {topo : Topo} {chain : ScorerChain α}
    {cap start goal : Nat} (hnn : NonNegScorers chain) (hwf : GraphWF topo)
    (hs : start < topo.length)
    (hx : (findShortestGraphTraversal topo chain cap start goal).done
      = some .exhausted) :
    ¬∃ d, ValidPath topo chain start goal d := by
  rintro ⟨d, hp⟩
  have inv := @SearchInv_iterate α _ topo chain cap goal start hnn hwf hs
    (searchFuel topo (initialSearchState (α := α) topo start))
  unfold findShortestGraphTraversal at hx
  have hgu : ((step topo chain cap goal)^[searchFuel topo
      (initialSearchState (α := α) topo start)]
      (initialSearchState topo start)).visited.getD goal false = false := by
    rcases h : ((step topo chain cap goal)^[searchFuel topo
        (initialSearchState (α := α) topo start)]
        (initialSearchState topo start)).visited.getD goal false with _ | _
    · rfl
    · exact absurd (hx ▸ inv.hgoal.mp h) (by simp)
  obtain ⟨p, hpq, _⟩ := inv.cover hnn hgu hgu hp
  rw [inv.hexh hx] at hpq
  cases hpq

/-- Marking any node visited preserves every already-set visited flag. -/
theorem getD_set_true_mono {l : List Bool} {u v : Nat}
    (h : l.getD v false = true) : (l.set u true).getD v false = true := by
  by_cases huv : u = v
  · subst huv
    by_cases hr : u < l.length
    · rw [getD_set_self hr]
    · rw [List.set_eq_of_length_le (Nat.le_of_not_lt hr)]
      exact h
  · rw [getD_set_ne huv]
    exact h

/-- One loop pass never unsets a visited flag. -/
theorem step_visited_mono (topo : Topo) (chain : ScorerChain α)
    (cap goal : Nat) (c : SearchState α) (v : Nat)
    (h : c.visited.getD v false = true) :
    (step topo chain cap goal c).visited.getD v false = true := by
  refine step_rec (P := fun s => s.visited.getD v false = true)
    ?_ ?_ ?_ ?_ ?_ ?_ ?_ ?_
  · intro _; exact h
  · intro _ _; exact h
  · intro top rest _ _ _ _; exact h
  · intro top rest _ _ _ _; exact h
  · intro top rest _ _ _ _ _; exact h
  · intro top rest _ _ _ _ _ _; exact getD_set_true_mono h
  · intro top rest _ _ _ _ _ _ _; exact getD_set_true_mono h
  · intro top rest du _ _ _ _ _ _ _
    rw [foldl_relax_visited]
    exact getD_set_true_mono h

/-- Any number of loop passes never unsets a visited flag. -/
theorem iterate_visited_mono (topo : Topo) (chain : ScorerChain α)
    (cap goal : Nat) (c : SearchState α) (v : Nat) (l : Nat)
    (h : c.visited.getD v false = true) :
    ((step topo chain cap goal)^[l] c).visited.getD v false = true := by
  induction l with
  | zero => exact h
  | succ n ih =>
    rw [Function.iterate_succ_apply']
    exact step_visited_mono topo chain cap goal _ v ih

/-- One loop pass never raises any node's recorded cost. -/
theorem step_best_mono (topo : Topo) (chain : ScorerChain α)
    (cap goal : Nat) (c : SearchState α) (v : Nat) :
    costLE ((step topo chain cap goal c).best_cost.getD v none)
      (c.best_cost.getD v none) = true := by
  refine step_rec
    (P := fun s => costLE (s.best_cost.getD v none)
      (c.best_cost.getD v none) = true) ?_ ?_ ?_ ?_ ?_ ?_ ?_ ?_
  · intro _; exact costLE_refl _
  · intro _ _; exact costLE_refl _
  · intro top rest _ _ _ _; exact costLE_refl _
  · intro top rest _ _ _ _; exact costLE_refl _
  · intro top rest _ _ _ _ _; exact costLE_refl _
  · intro top rest _ _ _ _ _ _; exact costLE_refl _
  · intro top rest _ _ _ _ _ _ _; exact costLE_refl _
  · intro top rest du _ _ _ _ _ _ _
    exact foldl_relax_best_mono chain du (getEdges topo top.2) _ v

/-- The shortest-path cost is unique. -/
theorem IsLeastCost_unique {topo : Topo} {chain : ScorerChain α}
    {s t : Nat} {d d' : α} (h1 : IsLeastCost topo chain s t d)
    (h2 : IsLeastCost topo chain s t d') : d = d' :=
  le_antisymm (h1.2 d' h2.1) (h2.2 d h1.1)

/-- With an uncapped run (`cap = 0`) no pass ever exits with `iterLimit`. -/
theorem step_cap0_done {topo : Topo} {chain : ScorerChain α} {goal : Nat}
    {c : SearchState α}
    (h : (step topo chain 0 goal c).done = some .iterLimit) :
    c.done = some .iterLimit := by
  revert h
  refine step_rec
    (P := fun s => s.done = some .iterLimit → c.done = some .iterLimit)
    ?_ ?_ ?_ ?_ ?_ ?_ ?_ ?_
  · intro _ h; exact h
  · intro _ _ h; exact absurd h (by simp)
  · intro top rest _ _ hcap0 _; exact absurd rfl hcap0
  · intro top rest _ _ _ _ h; exact h
  · intro top rest _ _ _ _ _ h; exact h
  · intro top rest _ _ _ _ _ _ h; exact absurd h (by simp)
  · intro top rest _ _ _ _ _ _ _ h; exact h
  · intro top rest du _ _ _ _ _ _ _ h
    rw [foldl_relax_done] at h
    exact h

/-- An uncapped traversal never reports `iterLimit`. -/
theorem iterate_cap0_no_iterLimit {topo : Topo} {chain : ScorerChain α}
    {goal : Nat} (c : SearchState α) (hd : c.done ≠ some .iterLimit)
    (k : Nat) :
    ((step topo chain 0 goal)^[k] c).done ≠ some .iterLimit := by
  induction k with
  | zero => exact hd
  | succ n ih =>
    rw [Function.iterate_succ_apply']
    intro h
    exact ih (step_cap0_done h)

/-- When the loop is still running and below the cap, the capped pass agrees
with the uncapped pass. -/
theorem step_cap_eq {topo : Topo} {chain : ScorerChain α} {cap goal : Nat}
    {c : SearchState α} (hdn : c.done = none) (hlt : c.iterations < cap) :
    step topo chain cap goal c = step topo chain 0 goal c := by
  unfold step
  have hd : ¬c.done.isSome = true := by simp [hdn]
  rw [if_neg hd, if_neg hd]
  cases hq : getNextNode c.queue with
  | none => rfl
  | some pr =>
    obtain ⟨top, rest⟩ := pr
    dsimp only
    rw [if_neg (show ¬(cap ≠ 0 ∧ cap ≤ c.iterations) by omega),
      if_neg (show ¬((0 : Nat) ≠ 0 ∧ 0 ≤ c.iterations) by simp)]

/-- A pass that leaves the loop running advanced the iteration counter by
exactly one, from a running state. -/
theorem step_running_iters {topo : Topo} {chain : ScorerChain α}
    {cap goal : Nat} {c : SearchState α}
    (h : (step topo chain cap goal c).done = none) :
    c.done = none ∧
      (step topo chain cap goal c).iterations = c.iterations + 1 := by
  revert h
  refine step_rec
    (P := fun s => s.done = none →
      c.done = none ∧ s.iterations = c.iterations + 1) ?_ ?_ ?_ ?_ ?_ ?_ ?_ ?_
  · intro hd h
    rw [h] at hd
    cases hd
  · intro _ _ h; exact absurd h (by simp)
  · intro top rest _ _ _ _ h; exact absurd h (by simp)
  · intro top rest hdn _ _ _ _; exact ⟨hdn, rfl⟩
  · intro top rest hdn _ _ _ _ _; exact ⟨hdn, rfl⟩
  · intro top rest _ _ _ _ _ _ h; exact absurd h (by simp)
  · intro top rest hdn _ _ _ _ _ _ _; exact ⟨hdn, rfl⟩
  · intro top rest du hdn _ _ _ _ _ _ _
    rw [foldl_relax_iterations]
    exact ⟨hdn, rfl⟩

/-- The pass that finds the goal also advanced the iteration counter by one,
from a running state. -/
theorem step_goalFound_iters {topo : Topo} {chain : ScorerChain α}
    {cap goal : Nat} {c : SearchState α}
    (h : (step topo chain cap goal c).done = some .goalFound)
    (hdn : c.done = none) :
    (step topo chain cap goal c).iterations = c.iterations + 1 := by
  revert h
  refine step_rec
    (P := fun s => s.done = some .goalFound →
      s.iterations = c.iterations + 1) ?_ ?_ ?_ ?_ ?_ ?_ ?_ ?_
  · intro hd _
    rw [hdn] at hd
    cases hd
  · intro _ _ h; exact absurd h (by simp)
  · intro top rest _ _ _ _ h; exact absurd h (by simp)
  · intro top rest _ _ _ _ _; rfl
  · intro top rest _ _ _ _ _ _; rfl
  · intro top rest _ _ _ _ _ _ _; rfl
  · intro top rest _ _ _ _ _ _ _ _; rfl
  · intro top rest du _ _ _ _ _ _ _ _
    rw [foldl_relax_iterations]

/-- While the uncapped run is still going, its iteration counter equals the
number of passes performed. -/
theorem iterate_running_iters {topo : Topo} {chain : ScorerChain α}
    {cap goal start : Nat} (k : Nat)
    (h : ((step topo chain cap goal)^[k]
      (initialSearchState (α := α) topo start)).done = none) :
    ((step topo chain cap goal)^[k]
      (initialSearchState (α := α) topo start)).iterations = k := by
  induction k with
  | zero => rfl
  | succ n ih =>
    rw [Function.iterate_succ_apply'] at h ⊢
    obtain ⟨hdn, hit⟩ := step_running_iters h
    rw [hit, ih hdn]

/-- Setting the cap below the number of loop iterations the uncapped run
needs to reach the goal makes the traversal exit with `iterLimit`. -/
theorem capped_run_iterLimit {topo : Topo} {chain : ScorerChain α}
    {start goal cap : Nat}
    (h0 : (findShortestGraphTraversal topo chain 0 start goal).done
      = some .goalFound)
    (hcap : 0 < cap)
    (hlt : cap <
      (findShortestGraphTraversal topo chain 0 start goal).iterations) :
    (findShortestGraphTraversal topo chain cap start goal).done
      = some .iterLimit := by
  unfold findShortestGraphTraversal at h0 hlt ⊢
  have hex : ∃ k, (((step topo chain 0 goal)^[k]
      (initialSearchState (α := α) topo start)).done).isSome = true :=
    ⟨searchFuel topo (initialSearchState (α := α) topo start),
      by rw [h0]; rfl⟩
  have hm : (((step topo chain 0 goal)^[Nat.find hex]
      (initialSearchState (α := α) topo start)).done).isSome = true :=
    Nat.find_spec hex
  have hbefore : ∀ j, j < Nat.find hex →
      ((step topo chain 0 goal)^[j]
        (initialSearchState (α := α) topo start)).done = none := fun j hj =>
    Option.not_isSome_iff_eq_none.mp (Nat.find_min hex hj)
  have hmF : Nat.find hex ≤
      searchFuel topo (initialSearchState (α := α) topo start) :=
    Nat.find_min' hex (by rw [h0]; rfl)
  have huF : (step topo chain 0 goal)^[searchFuel topo
      (initialSearchState (α := α) topo start)]
      (initialSearchState (α := α) topo start) =
      (step topo chain 0 goal)^[Nat.find hex]
      (initialSearchState (α := α) topo start) := by
    have h1 : (step topo chain 0 goal)^[searchFuel topo
        (initialSearchState (α := α) topo start)]
        (initialSearchState (α := α) topo start) =
        (step topo chain 0 goal)^[searchFuel topo
          (initialSearchState (α := α) topo start) - Nat.find hex]
        ((step topo chain 0 goal)^[Nat.find hex]
          (initialSearchState (α := α) topo start)) := by
      rw [← Function.iterate_add_apply]
      congr 1
      omega
    rw [h1, iterate_step_of_done hm]
  have hum : (((step topo chain 0 goal)^[Nat.find hex]
      (initialSearchState (α := α) topo start)).done) = some .goalFound := by
    rw [← huF]
    exact h0
  have hm0 : Nat.find hex ≠ 0 := by
    intro h
    rw [h] at hum
    simp [initialSearchState] at hum
  have hmpred : ((step topo chain 0 goal)^[Nat.find hex - 1]
      (initialSearchState (α := α) topo start)).done = none :=
    hbefore _ (by omega)
  have hstep : step topo chain 0 goal ((step topo chain 0 goal)^[Nat.find hex - 1]
      (initialSearchState (α := α) topo start)) =
      (step topo chain 0 goal)^[Nat.find hex]
      (initialSearchState (α := α) topo start) := by
    have hsucc : Nat.find hex = (Nat.find hex - 1) + 1 := by omega
    conv_rhs => rw [hsucc]
    rw [Function.iterate_succ_apply']
  have hitm : (((step topo chain 0 goal)^[Nat.find hex]
      (initialSearchState (α := α) topo start)).iterations) = Nat.find hex := by
    rw [← hstep]
    rw [step_goalFound_iters (by rw [hstep]; exact hum) hmpred]
    rw [iterate_running_iters _ hmpred]
    omega
  rw [huF, hitm] at hlt
  have hagree : ∀ k, k ≤ cap → (step topo chain cap goal)^[k]
      (initialSearchState (α := α) topo start) =
      (step topo chain 0 goal)^[k]
      (initialSearchState (α := α) topo start) := by
    intro k
    induction k with
    | zero => intro _; rfl
    | succ n ih =>
      intro hk
      rw [Function.iterate_succ_apply', Function.iterate_succ_apply',
        ih (by omega)]
      have hdn : ((step topo chain 0 goal)^[n]
          (initialSearchState (α := α) topo start)).done = none :=
        hbefore n (by omega)
      have hit := iterate_running_iters n hdn
      exact step_cap_eq hdn (by omega)
  have hducap : ((step topo chain 0 goal)^[cap]
      (initialSearchState (α := α) topo start)).done = none :=
    hbefore cap (by omega)
  have hitcap : ((step topo chain 0 goal)^[cap]
      (initialSearchState (α := α) topo start)).iterations = cap :=
    iterate_running_iters cap hducap
  have hqne : getNextNode ((step topo chain 0 goal)^[cap]
      (initialSearchState (α := α) topo start)).queue ≠ none := by
    intro hq
    have hx : ((step topo chain 0 goal)^[cap + 1]
        (initialSearchState (α := α) topo start)).done = some .exhausted := by
      rw [Function.iterate_succ_apply']
      simp only [step]
      rw [if_neg (by simp [hducap]), hq]
    have hle : cap + 1 ≤ Nat.find hex := by omega
    have heq : (step topo chain 0 goal)^[Nat.find hex]
        (initialSearchState (α := α) topo start) =
        (step topo chain 0 goal)^[cap + 1]
        (initialSearchState (α := α) topo start) := by
      have h1 : (step topo chain 0 goal)^[Nat.find hex]
          (initialSearchState (α := α) topo start) =
          (step topo chain 0 goal)^[Nat.find hex - (cap + 1)]
          ((step topo chain 0 goal)^[cap + 1]
            (initialSearchState (α := α) topo start)) := by
        rw [← Function.iterate_add_apply]
        congr 1
        omega
      rw [h1, iterate_step_of_done (by rw [hx]; rfl)]
    rw [heq, hx] at hum
    simp at hum
  obtain ⟨pr, hpr⟩ := Option.ne_none_iff_exists'.mp hqne
  obtain ⟨top, rest⟩ := pr
  have hcapstep : step topo chain cap goal ((step topo chain 0 goal)^[cap]
      (initialSearchState (α := α) topo start)) =
      { (step topo chain 0 goal)^[cap]
        (initialSearchState (α := α) topo start) with
        done := some .iterLimit } := by
    simp only [step]
    rw [if_neg (by simp [hducap]), hpr]
    dsimp only
    rw [if_pos ⟨by omega, by rw [hitcap]⟩]
  have hF2 : (step topo chain cap goal)^[cap + 1]
      (initialSearchState (α := α) topo start) =
      { (step topo chain 0 goal)^[cap]
        (initialSearchState (α := α) topo start) with
        done := some .iterLimit } := by
    rw [Function.iterate_succ_apply', hagree cap (le_refl _), hcapstep]
  have hsplit : (step topo chain cap goal)^[searchFuel topo
      (initialSearchState (α := α) topo start)]
      (initialSearchState (α := α) topo start) =
      (step topo chain cap goal)^[searchFuel topo
        (initialSearchState (α := α) topo start) - (cap + 1)]
      ((step topo chain cap goal)^[cap + 1]
        (initialSearchState (α := α) topo start)) := by
    rw [← Function.iterate_add_apply]
    congr 1
    omega
  rw [hsplit, hF2, iterate_step_of_done (by rfl)]

/-- Relaxing a list of edges that are all vetoed leaves the state
untouched. -/
theorem foldl_veto {chain : ScorerChain α} {es : List Edge} (du : α)
    (s : SearchState α) (hv : ∀ e ∈ es, getTraversalCost chain e = none) :
    es.foldl (relaxEdge chain du) s = s := by
  induction es generalizing s with
  | nil => rfl
  | cons e es ih =>
    rw [List.foldl_cons, relaxEdge_skip du s (hv e (List.mem_cons_self _ _))]
    exact ih s (fun e' he' => hv e' (List.mem_cons_of_mem _ he'))

/-- If every edge leaving the start node is vetoed, the traversal pops the
start, relaxes nothing, and exhausts the frontier. -/
theorem veto_start_exhausted {topo : Topo} {chain : ScorerChain α}
    {cap start goal : Nat} (hs : start < topo.length) (hsg : start ≠ goal)
    (hveto : ∀ e ∈ getEdges topo start, getTraversalCost chain e = none) :
    (findShortestGraphTraversal topo chain cap start goal).done
      = some .exhausted := by
  have hq0 : getNextNode ((initialSearchState (α := α) topo start).queue)
      = some ((0, start), []) := rfl
  have hv0 : (initialSearchState (α := α) topo start).visited.getD start false
      = false := by
    simp [initialSearchState, getD_replicate]
  have hb0 : (initialSearchState (α := α) topo start).best_cost.getD start none
      = some 0 := by
    rw [initial_best hs]
    simp
  have hst0 : isStale (initialSearchState (α := α) topo start).best_cost
      start (0 : α) = false := by
    unfold isStale
    rw [hb0]
    simp
  have h1 : step topo chain cap goal (initialSearchState topo start) =
      { initialSearchState (α := α) topo start with
        visited := (initialSearchState (α := α) topo start).visited.set
          start true
        queue := []
        iterations := 1 } := by
    simp only [step]
    rw [if_neg (by simp [initialSearchState]), hq0]
    dsimp only
    rw [if_neg (show ¬(cap ≠ 0 ∧ cap ≤
      (initialSearchState (α := α) topo start).iterations) from by
        simp [initialSearchState])]
    rw [if_neg (by rw [hv0]; simp)]
    rw [if_neg (by rw [hst0]; simp)]
    rw [if_neg hsg]
    rw [hb0]
    dsimp only
    rw [foldl_veto 0 _ hveto]
    rfl
  have h2 : step topo chain cap goal
      ({ initialSearchState (α := α) topo start with
        visited := (initialSearchState (α := α) topo start).visited.set
          start true
        queue := []
        iterations := 1 }) =
      { initialSearchState (α := α) topo start with
        visited := (initialSearchState (α := α) topo start).visited.set
          start true
        queue := []
        iterations := 1
        done := some .exhausted } := by
    simp only [step]
    rw [if_neg (by simp [initialSearchState])]
    rfl
  have hF : 2 ≤ searchFuel topo (initialSearchState (α := α) topo start) := by
    unfold searchFuel searchWork
    have hc : (initialSearchState (α := α) topo start).visited.count false
        = topo.length := by
      simp [initialSearchState]
    rw [hc]
    have h1 : 1 * 1 ≤ topo.length * (totalEdges topo + 1) :=
      Nat.mul_le_mul (by omega) (by omega)
    omega
  unfold findShortestGraphTraversal
  have hsplit : (step topo chain cap goal)^[searchFuel topo
      (initialSearchState (α := α) topo start)]
      (initialSearchState (α := α) topo start) =
      (step topo chain cap goal)^[searchFuel topo
        (initialSearchState (α := α) topo start) - 2]
      ((step topo chain cap goal)^[2]
        (initialSearchState (α := α) topo start)) := by
    rw [← Function.iterate_add_apply, Nat.sub_add_cancel hF]
  have h12 : (step topo chain cap goal)^[2]
      (initialSearchState (α := α) topo start) =
      step topo chain cap goal (step topo chain cap goal
        (initialSearchState (α := α) topo start)) := rfl
  rw [hsplit, h12, h1, h2, iterate_step_of_done (by rfl)]

/-- An uncapped traversal never exits with `iterLimit`. -/
theorem traversal_cap0_no_iterLimit (topo : Topo) (chain : ScorerChain α)
    (start goal : Nat) :
    (findShortestGraphTraversal topo chain 0 start goal).done
      ≠ some .iterLimit := by
  unfold findShortestGraphTraversal
  exact iterate_cap0_no_iterLimit _ (by simp [initialSearchState]) _

/-- An uncapped traversal ends with the goal found or the frontier
exhausted. -/
theorem traversal_cap0_outcome (topo : Topo) (chain : ScorerChain α)
    (start goal : Nat) :
    (findShortestGraphTraversal topo chain 0 start goal).done
        = some .goalFound ∨
      (findShortestGraphTraversal topo chain 0 start goal).done
        = some .exhausted := by
  have h1 := traversal_done_isSome topo chain 0 start goal
  have h2 := traversal_cap0_no_iterLimit topo chain start goal
  obtain ⟨r, hr⟩ := Option.isSome_iff_exists.mp h1
  cases r with
  | goalFound => exact Or.inl hr
  | exhausted => exact Or.inr hr
  | iterLimit => exact absurd hr h2

/-- `findRoute` on an out-of-range index. -/
theorem findRoute_invalid {p : RoutePlanner α} {g : Graph α} {s t : Nat}
    (h : ¬(s < g.length ∧ t < g.length)) :
    findRoute p g s t = (.error .invalidRequest, g) := by
  unfold findRoute
  rw [if_neg h]

/-- `findRoute` on a trivial request. -/
theorem findRoute_trivial {p : RoutePlanner α} {g : Graph α} {s t : Nat}
    (h : s < g.length ∧ t < g.length) (he : s = t) :
    findRoute p g s t = (.ok ⟨s, [], 0⟩, resetSearchStates g) := by
  simp only [findRoute]
  rw [if_pos h, if_pos he]

/-- `findRoute` on a proper request runs the traversal and converts its
outcome. -/
theorem findRoute_run {p : RoutePlanner α} {g : Graph α} {s t : Nat}
    (hs : s < g.length) (ht : t < g.length) (hst : s ≠ t) :
    findRoute p g s t =
      (routeFromSearch (g.map Node.out) s t
        (findShortestGraphTraversal (g.map Node.out) p.edge_scorer
          p.max_iterations s t),
       writebackState 0
        (findShortestGraphTraversal (g.map Node.out) p.edge_scorer
          p.max_iterations s t) (resetSearchStates g)) := by
  simp only [findRoute]
  rw [if_pos ⟨hs, ht⟩, if_neg hst]

/-- Outcome conversion: goal found. -/
theorem routeFromSearch_goalFound {topo : Topo} {s t : Nat}
    {c : SearchState α} (h : c.done = some .goalFound) :
    routeFromSearch topo s t c =
      .ok ⟨s, backtrace c.parent_edge s t (topo.length + 1),
        (c.best_cost.getD t none).getD 0⟩ := by
  unfold routeFromSearch
  rw [h]

/-- Outcome conversion: frontier exhausted. -/
theorem routeFromSearch_exhausted {topo : Topo} {s t : Nat}
    {c : SearchState α} (h : c.done = some .exhausted) :
    routeFromSearch topo s t c = .error .noValidRouteFound := by
  unfold routeFromSearch
  rw [h]

/-- Outcome conversion: iteration cap. -/
theorem routeFromSearch_iterLimit {topo : Topo} {s t : Nat}
    {c : SearchState α} (h : c.done = some .iterLimit) :
    routeFromSearch topo s t c = .error .iterationLimitExceeded := by
  unfold routeFromSearch
  rw [h]

/-- Resetting the search state does not touch the topology. -/
theorem resetSearchStates_out (g : Graph α) :
    (resetSearchStates g).map Node.out = g.map Node.out := by
  unfold resetSearchStates
  rw [List.map_map]
  rfl

/-- Resetting the search state does not change the node count. -/
theorem resetSearchStates_length (g : Graph α) :
    (resetSearchStates g).length = g.length := by
  simp [resetSearchStates]

/-- Writing search state back does not touch the topology. -/
theorem writebackState_out (c : SearchState α) :
    ∀ (g : Graph α) (i : Nat),
      (writebackState i c g).map Node.out = g.map Node.out := by
  intro g
  induction g with
  | nil => intro i; rfl
  | cons nd rest ih =>
    intro i
    simp only [writebackState, List.map_cons]
    rw [ih (i + 1)]

/-- Writing search state back does not change the node count. -/
theorem writebackState_length (c : SearchState α) :
    ∀ (g : Graph α) (i : Nat), (writebackState i c g).length = g.length := by
  intro g
  induction g with
  | nil => intro i; rfl
  | cons nd rest ih =>
    intro i
    simp only [writebackState, List.length_cons]
    rw [ih (i + 1)]

/-- The route result of `findRoute` depends only on the graph's topology,
not on the transient per-node search state it carries. -/
theorem findRoute_fst_congr {p : RoutePlanner α} {g1 g2 : Graph α}
    {s t : Nat} (hmap : g1.map Node.out = g2.map Node.out) :
    (findRoute p g1 s t).1 = (findRoute p g2 s t).1 := by
  have hlen : g1.length = g2.length := by
    have := congrArg List.length hmap
    simpa using this
  by_cases h : s < g1.length ∧ t < g1.length
  · by_cases he : s = t
    · rw [findRoute_trivial h he, findRoute_trivial (hlen ▸ h) he]
    · rw [findRoute_run h.1 h.2 he,
        findRoute_run (hlen ▸ h).1 (hlen ▸ h).2 he]
      dsimp only
      rw [hmap]
  · rw [findRoute_invalid h, findRoute_invalid (by rw [← hlen]; exact h)]

/-- The post-call graph of `findRoute` keeps the topology of its input. -/
theorem findRoute_snd_out (p : RoutePlanner α) (g : Graph α) (s t : Nat) :
    ((findRoute p g s t).2).map Node.out = g.map Node.out := by
  by_cases h : s < g.length ∧ t < g.length
  · by_cases he : s = t
    · rw [findRoute_trivial h he]
      exact resetSearchStates_out g
    · rw [findRoute_run h.1 h.2 he]
      dsimp only
      rw [writebackState_out, resetSearchStates_out]
  · rw [findRoute_invalid h]

/-- The post-call graph of `findRoute` keeps the node count of its input. -/
theorem findRoute_snd_length (p : RoutePlanner α) (g : Graph α) (s t : Nat) :
    ((findRoute p g s t).2).length = g.length := by
  by_cases h : s < g.length ∧ t < g.length
  · by_cases he : s = t
    · rw [findRoute_trivial h he]
      exact resetSearchStates_length g
    · rw [findRoute_run h.1 h.2 he]
      dsimp only
      rw [writebackState_length, resetSearchStates_length]
  · rw [findRoute_invalid h]

/-- `routeFromSearch` never raises `invalidRequest`: index validation happens
before the traversal, not after it. -/
theorem routeFromSearch_ne_invalid {topo : Topo} {s t : Nat}
    (c : SearchState α) :
    routeFromSearch topo s t c ≠ .error .invalidRequest := by
  unfold routeFromSearch
  cases hd : c.done with
  | none => simp
  | some o => cases o <;> simp

/-- C1: with non-negative edge scorers on a well-formed graph, when the goal
is reachable through the scorer chain and the iteration cap is not hit,
`findRoute` succeeds and its reported total cost is the true shortest-path
cost; in particular on the four-edge example graph A→B (1), B→D (1),
A→C (1), C→D (5), `findRoute(A, D)` returns the path A→B→D with total
cost 2. -/
theorem claim_C1 :
    (∀ (p : RoutePlanner α) (g : Graph α) (s t : Nat),
      NonNegScorers p.edge_scorer → GraphWF (g.map Node.out) →
      s < g.length → t < g.length →
      (∃ d, ValidPath (g.map Node.out) p.edge_scorer s t d) →
      (findShortestGraphTraversal (g.map Node.out) p.edge_scorer
        p.max_iterations s t).done ≠ some .iterLimit →
      ∃ r : Route α, (findRoute p g s t).1 = .ok r ∧
        IsLeastCost (g.map Node.out) p.edge_scorer s t r.route_cost) ∧
    (findRoute examplePlanner exampleGraph 0 3).1
      = .ok ⟨0, [⟨0, 1⟩, ⟨1, 3⟩], 2⟩ := by
  constructor
  · intro p g s t hnn hwf hs ht hreach hni
    by_cases hst : s = t
    · subst hst
      refine ⟨⟨s, [], 0⟩, ?_, ValidPath.nil s, ?_⟩
      · rw [findRoute_trivial ⟨hs, ht⟩ rfl]
      · intro d' hp
        exact hp.nonneg hnn
    · have hs' : s < (g.map Node.out).length := by simpa using hs
      have hdone := traversal_done_isSome (g.map Node.out) p.edge_scorer
        p.max_iterations s t
      obtain ⟨o, ho⟩ := Option.isSome_iff_exists.mp hdone
      cases o with
      | goalFound =>
        obtain ⟨d, hbd, hleast⟩ := traversal_goalFound_least hnn hwf hs' ho
        have heq : (findRoute p g s t).1 = Except.ok
            ⟨s, backtrace (findShortestGraphTraversal (g.map Node.out)
                p.edge_scorer p.max_iterations s t).parent_edge s t
              ((g.map Node.out).length + 1),
              ((findShortestGraphTraversal (g.map Node.out) p.edge_scorer
                p.max_iterations s t).best_cost.getD t none).getD 0⟩ := by
          rw [findRoute_run hs ht hst]
          dsimp only
          rw [routeFromSearch_goalFound ho]
        refine ⟨_, heq, ?_⟩
        dsimp only
        rw [hbd]
        exact hleast
      | exhausted =>
        exact absurd hreach (traversal_exhausted_unreachable hnn hwf hs' ho)
      | iterLimit => exact absurd ho hni
  · decide

/-- C2: `findRoute(graph, i, i)` with an in-range start equal to the goal
returns the trivially successful single-node route with no edges and total
cost 0, without running the graph traversal. -/
theorem claim_C2 (p : RoutePlanner α) (g : Graph α) (i : Nat)
    (h : i < g.length) :
    (findRoute p g i i).1 = .ok ⟨i, [], 0⟩ := by
  rw [findRoute_trivial ⟨h, h⟩ rfl]

/-- C2 at a concrete input: the trivial route on the example graph. -/
theorem claim_C2_witness :
    (findRoute examplePlanner exampleGraph 1 1).1 = .ok ⟨1, [], 0⟩ :=
  claim_C2 examplePlanner exampleGraph 1 (by decide)

/-- C3: `findRoute` raises `invalidRequest` exactly when the start or the
goal index is out of the graph's range. -/
theorem claim_C3 (p : RoutePlanner α) (g : Graph α) (s t : Nat) :
    (findRoute p g s t).1 = .error .invalidRequest ↔
      ¬(s < g.length ∧ t < g.length) := by
  constructor
  · intro h hrng
    by_cases hst : s = t
    · rw [findRoute_trivial hrng hst] at h
      simp at h
    · rw [findRoute_run hrng.1 hrng.2 hst] at h
      dsimp only at h
      exact routeFromSearch_ne_invalid _ h
  · intro h
    rw [findRoute_invalid h]

/-- C4: failure is all-or-nothing with typed errors: for a proper in-range
request, a traversal that exhausted the frontier makes `findRoute` return
`noValidRouteFound`, one that hit the iteration cap makes it return
`iterationLimitExceeded`, and a successful result is only ever produced when
the traversal actually reached the goal — no partial path is returned. -/
theorem claim_C4 (p : RoutePlanner α) (g : Graph α) (s t : Nat)
    (hs : s < g.length) (ht : t < g.length) (hst : s ≠ t) :
    ((findShortestGraphTraversal (g.map Node.out) p.edge_scorer
        p.max_iterations s t).done = some .exhausted →
      (findRoute p g s t).1 = .error .noValidRouteFound) ∧
    ((findShortestGraphTraversal (g.map Node.out) p.edge_scorer
        p.max_iterations s t).done = some .iterLimit →
      (findRoute p g s t).1 = .error .iterationLimitExceeded) ∧
    (∀ r : Route α, (findRoute p g s t).1 = .ok r →
      (findShortestGraphTraversal (g.map Node.out) p.edge_scorer
        p.max_iterations s t).done = some .goalFound) := by
  refine ⟨?_, ?_, ?_⟩
  · intro hx
    rw [findRoute_run hs ht hst]
    dsimp only
    rw [routeFromSearch_exhausted hx]
  · intro hx
    rw [findRoute_run hs ht hst]
    dsimp only
    rw [routeFromSearch_iterLimit hx]
  · intro r hr
    have hdone := traversal_done_isSome (g.map Node.out) p.edge_scorer
      p.max_iterations s t
    obtain ⟨o, ho⟩ := Option.isSome_iff_exists.mp hdone
    cases o with
    | goalFound => exact ho
    | exhausted =>
      rw [findRoute_run hs ht hst] at hr
      dsimp only at hr
      rw [routeFromSearch_exhausted ho] at hr
      exact absurd hr (by simp)
    | iterLimit =>
      rw [findRoute_run hs ht hst] at hr
      dsimp only at hr
      rw [routeFromSearch_iterLimit ho] at hr
      exact absurd hr (by simp)

/-- C4 at a concrete input: the outcome mapping on the example request. -/
theorem claim_C4_witness :
    ((findShortestGraphTraversal (exampleGraph.map Node.out)
        examplePlanner.edge_scorer examplePlanner.max_iterations 0 3).done
        = some .exhausted →
      (findRoute examplePlanner exampleGraph 0 3).1
        = .error .noValidRouteFound) ∧
    ((findShortestGraphTraversal (exampleGraph.map Node.out)
        examplePlanner.edge_scorer examplePlanner.max_iterations 0 3).done
        = some .iterLimit →
      (findRoute examplePlanner exampleGraph 0 3).1
        = .error .iterationLimitExceeded) ∧
    (∀ r : Route ℤ, (findRoute examplePlanner exampleGraph 0 3).1 = .ok r →
      (findShortestGraphTraversal (exampleGraph.map Node.out)
        examplePlanner.edge_scorer examplePlanner.max_iterations 0 3).done
        = some .goalFound) :=
  claim_C4 examplePlanner exampleGraph 0 3 (by decide) (by decide) (by decide)

/-- C5: the loop guard — a running pass with an empty queue exits
`exhausted`, one whose positive cap is already reached exits `iterLimit`,
with cap 0 (unbounded) a pass never exits `iterLimit`; and capping a
solvable instance below the number of loop iterations the uncapped search
needs makes `findRoute` return `iterationLimitExceeded`, never a route. -/
theorem claim_C5 :
    (∀ (topo : Topo) (chain : ScorerChain α) (cap goal : Nat)
        (c : SearchState α), c.done = none →
      (getNextNode c.queue = none →
        (step topo chain cap goal c).done = some .exhausted) ∧
      (∀ x, getNextNode c.queue = some x → cap ≠ 0 → cap ≤ c.iterations →
        (step topo chain cap goal c).done = some .iterLimit) ∧
      (cap = 0 → (step topo chain cap goal c).done ≠ some .iterLimit)) ∧
    (∀ (chain : ScorerChain α) (g : Graph α) (s t cap : Nat),
      s < g.length → t < g.length → s ≠ t →
      (findShortestGraphTraversal (g.map Node.out) chain 0 s t).done
        = some .goalFound →
      0 < cap →
      cap <
        (findShortestGraphTraversal (g.map Node.out) chain 0 s t).iterations →
      (findRoute ⟨cap, chain⟩ g s t).1 = .error .iterationLimitExceeded) := by
  constructor
  · intro topo chain cap goal c hdn
    refine ⟨?_, ?_, ?_⟩
    · intro hq
      simp only [step]
      rw [if_neg (by simp [hdn]), hq]
    · rintro ⟨top, rest⟩ hq hc1 hc2
      simp only [step]
      rw [if_neg (by simp [hdn]), hq]
      dsimp only
      rw [if_pos ⟨hc1, hc2⟩]
    · rintro rfl h
      exact absurd (step_cap0_done h) (by simp [hdn])
  · intro chain g s t cap hs ht hst h0 hcap hlt
    rw [findRoute_run hs ht hst]
    dsimp only
    rw [routeFromSearch_iterLimit (capped_run_iterLimit h0 hcap hlt)]

/-- C5 at a concrete input: cap 1 on the example instance, which needs 4
iterations, aborts with `iterationLimitExceeded`. -/
theorem claim_C5_witness :
    (findRoute ⟨1, exampleChain⟩ exampleGraph 0 3).1
      = .error .iterationLimitExceeded :=
  (claim_C5 (α := ℤ)).2 exampleChain exampleGraph 0 3 1 (by decide)
    (by decide) (by decide) (by decide) (by decide) (by decide)

/-- C6: `findRoute` is idempotent across calls on an unmutated graph:
`resetSearchStates` wipes every node's transient search state, so a call on
the graph a previous call returned — with the same or any other start/goal
pair — returns exactly what a fresh call on the original graph returns. -/
theorem claim_C6 :
    (∀ (g : Graph α) (nd : Node α), nd ∈ resetSearchStates g →
      nd.visited = false ∧ nd.best_cost = none ∧ nd.parent_edge = none) ∧
    (∀ (p : RoutePlanner α) (g : Graph α) (s t u v : Nat),
      (findRoute p ((findRoute p g s t).2) u v).1
        = (findRoute p g u v).1) := by
  constructor
  · intro g nd hnd
    obtain ⟨nd0, _, rfl⟩ := List.mem_map.mp hnd
    exact ⟨rfl, rfl, rfl⟩
  · intro p g s t u v
    exact findRoute_fst_congr (findRoute_snd_out p g s t)

/-- C7: every node's recorded `best_cost` is monotonically non-increasing
across single-edge relaxations and across whole loop passes, and (with
non-negative scorers on a well-formed graph) once a node is popped with a
recorded cost equal to its current `best_cost`, that cost stays unchanged
for the whole remainder of the search. -/
theorem claim_C7 :
    (∀ (chain : ScorerChain α) (du : α) (c : SearchState α) (e : Edge)
        (v : Nat),
      costLE ((relaxEdge chain du c e).best_cost.getD v none)
        (c.best_cost.getD v none) = true) ∧
    (∀ (topo : Topo) (chain : ScorerChain α) (cap goal : Nat)
        (c : SearchState α) (v : Nat),
      costLE ((step topo chain cap goal c).best_cost.getD v none)
        (c.best_cost.getD v none) = true) ∧
    (∀ (topo : Topo) (chain : ScorerChain α) (cap goal start : Nat),
      NonNegScorers chain → GraphWF topo → start < topo.length →
      ∀ (k : Nat) (top : α × Nat) (rest : List (α × Nat)),
        ((step topo chain cap goal)^[k]
          (initialSearchState topo start)).done = none →
        getNextNode ((step topo chain cap goal)^[k]
          (initialSearchState topo start)).queue = some (top, rest) →
        ((step topo chain cap goal)^[k]
          (initialSearchState topo start)).visited.getD top.2 false
          = false →
        ((step topo chain cap goal)^[k]
          (initialSearchState topo start)).best_cost.getD top.2 none
          = some top.1 →
        ∀ l : Nat,
          ((step topo chain cap goal)^[l] (step topo chain cap goal
            ((step topo chain cap goal)^[k]
              (initialSearchState topo start)))).best_cost.getD top.2 none
            = some top.1) := by
  refine ⟨?_, ?_, ?_⟩
  · intro chain du c e v
    exact relaxEdge_best_mono chain du c e v
  · intro topo chain cap goal c v
    exact step_best_mono topo chain cap goal c v
  · intro topo chain cap goal start hnn hwf hs k top rest hdn hq hv hb l
    have inv := @SearchInv_iterate α _ topo chain cap goal start hnn hwf hs k
    have hleast : IsLeastCost topo chain start top.2 top.1 :=
      inv.popped_least hnn hdn hq hv hb
    by_cases hcap : cap ≠ 0 ∧ cap ≤ ((step topo chain cap goal)^[k]
        (initialSearchState (α := α) topo start)).iterations
    · have hstep : step topo chain cap goal ((step topo chain cap goal)^[k]
          (initialSearchState (α := α) topo start)) =
          { (step topo chain cap goal)^[k]
              (initialSearchState (α := α) topo start) with
            done := some .iterLimit } := by
        simp only [step]
        rw [if_neg (by simp [hdn]), hq]
        dsimp only
        rw [if_pos hcap]
      rw [hstep, iterate_step_of_done (by rfl) l]
      exact hb
    · have hst : isStale ((step topo chain cap goal)^[k]
          (initialSearchState (α := α) topo start)).best_cost top.2 top.1
          = false := by
        unfold isStale
        rw [hb]
        simp
      have hrng : top.2 < topo.length := inv.q_rng top (getNextNode_mem hq)
      have hlenv : ((step topo chain cap goal)^[k]
          (initialSearchState (α := α) topo start)).visited.length
          = topo.length := inv.hlen_v
      have hvis1 : (step topo chain cap goal ((step topo chain cap goal)^[k]
          (initialSearchState (α := α) topo start))).visited.getD top.2 false
          = true := by
        refine step_rec (P := fun s => s.visited.getD top.2 false = true)
          ?_ ?_ ?_ ?_ ?_ ?_ ?_ ?_
        · intro hd
          rw [hdn] at hd
          cases hd
        · intro _ hq'
          rw [hq] at hq'
          exact Option.noConfusion hq'
        · intro top' rest' _ _ hc1 hc2
          exact absurd ⟨hc1, hc2⟩ hcap
        · intro top' rest' _ hq' _ hv'
          have h2 := hq.symm.trans hq'
          simp only [Option.some.injEq, Prod.mk.injEq] at h2
          obtain ⟨rfl, rfl⟩ := h2
          rw [hv] at hv'
          exact absurd hv' (by simp)
        · intro top' rest' _ hq' _ _ hst'
          have h2 := hq.symm.trans hq'
          simp only [Option.some.injEq, Prod.mk.injEq] at h2
          obtain ⟨rfl, rfl⟩ := h2
          rw [hst] at hst'
          exact absurd hst' (by simp)
        · intro top' rest' _ hq' _ _ _ _
          have h2 := hq.symm.trans hq'
          simp only [Option.some.injEq, Prod.mk.injEq] at h2
          obtain ⟨rfl, rfl⟩ := h2
          exact getD_set_self (by rw [hlenv]; exact hrng)
        · intro top' rest' _ hq' _ _ _ _ _
          have h2 := hq.symm.trans hq'
          simp only [Option.some.injEq, Prod.mk.injEq] at h2
          obtain ⟨rfl, rfl⟩ := h2
          exact getD_set_self (by rw [hlenv]; exact hrng)
        · intro top' rest' du _ hq' _ _ _ _ _
          have h2 := hq.symm.trans hq'
          simp only [Option.some.injEq, Prod.mk.injEq] at h2
          obtain ⟨rfl, rfl⟩ := h2
          rw [foldl_relax_visited]
          exact getD_set_self (by rw [hlenv]; exact hrng)
      have hvisl : ((step topo chain cap goal)^[l] (step topo chain cap goal
          ((step topo chain cap goal)^[k]
            (initialSearchState (α := α) topo start)))).visited.getD
          top.2 false = true :=
        iterate_visited_mono topo chain cap goal _ top.2 l hvis1
      have hform : (step topo chain cap goal)^[l] (step topo chain cap goal
          ((step topo chain cap goal)^[k]
            (initialSearchState (α := α) topo start))) =
          (step topo chain cap goal)^[l + (k + 1)]
            (initialSearchState (α := α) topo start) := by
        rw [Function.iterate_add_apply]
        congr 1
        rw [Function.iterate_succ_apply']
      have invL := @SearchInv_iterate α _ topo chain cap goal start hnn hwf hs
        (l + (k + 1))
      rw [hform] at hvisl ⊢
      obtain ⟨d, hbd, hleastd⟩ := invL.settled top.2 hvisl
      rw [hbd, IsLeastCost_unique hleastd hleast]

/-- C8: a veto from any one strategy in the chain invalidates the edge
regardless of the other strategies' results, a vetoed edge is skipped
entirely by relaxation, and a chain that vetoes every edge leaving the start
makes `findRoute` return `noValidRouteFound` even when a topological path to
the goal exists. -/
theorem claim_C8 :
    (∀ (chain : ScorerChain α) (sc : Edge → Option α), sc ∈ chain →
      ∀ e : Edge, sc e = none → getTraversalCost chain e = none) ∧
    (∀ (chain : ScorerChain α) (du : α) (c : SearchState α) (e : Edge),
      getTraversalCost chain e = none → relaxEdge chain du c e = c) ∧
    (∀ (p : RoutePlanner α) (g : Graph α) (s t : Nat),
      s < g.length → t < g.length → s ≠ t →
      TopoPath (g.map Node.out) s t →
      (∀ e ∈ getEdges (g.map Node.out) s,
        getTraversalCost p.edge_scorer e = none) →
      (findRoute p g s t).1 = .error .noValidRouteFound) := by
  refine ⟨?_, ?_, ?_⟩
  · intro chain sc hmem e hnone
    exact getTraversalCost_veto hmem hnone
  · intro chain du c e hc
    exact relaxEdge_skip du c hc
  · intro p g s t hs ht hst _ hveto
    rw [findRoute_run hs ht hst]
    dsimp only
    rw [routeFromSearch_exhausted
      (veto_start_exhausted (by simpa using hs) hst hveto)]

/-- C9: lazy invalidation in lieu of decrease-key — `addNode` inserts
duplicate entries freely (re-adding a node increments its entry count), an
entry is stale exactly when its recorded cost exceeds the node's current
best cost, and a pop of an already finalized or stale entry is discarded
without any processing: the state changes only by dropping the entry and
counting the iteration. -/
theorem claim_C9 :
    (∀ (q : List (α × Nat)) (cost : α) (node : Nat),
      (addNode cost node q).count (cost, node) = q.count (cost, node) + 1) ∧
    (∀ (best : List (Option α)) (u : Nat) (cost : α),
      isStale best u cost = true ↔
        ∃ b, best.getD u none = some b ∧ b < cost) ∧
    (∀ (topo : Topo) (chain : ScorerChain α) (cap goal : Nat)
        (c : SearchState α) (top : α × Nat) (rest : List (α × Nat)),
      c.done = none → getNextNode c.queue = some (top, rest) →
      ¬(cap ≠ 0 ∧ cap ≤ c.iterations) →
      (c.visited.getD top.2 false = true ∨
        isStale c.best_cost top.2 top.1 = true) →
      step topo chain cap goal c =
        { c with queue := rest, iterations := c.iterations + 1 }) := by
  refine ⟨?_, ?_, ?_⟩
  · intro q cost node
    simp [addNode]
  · intro best u cost
    unfold isStale
    cases hb : best.getD u none with
    | none => simp
    | some b => simp
  · intro topo chain cap goal c top rest hdn hq hcap hdis
    simp only [step]
    rw [if_neg (by simp [hdn]), hq]
    dsimp only
    rw [if_neg hcap]
    rcases hdis with hv | hstl
    · rw [if_pos hv]
    · by_cases hv : c.visited.getD top.2 false = true
      · rw [if_pos hv]
      · rw [if_neg hv, if_pos hstl]

/-- C10: the header initialises `int max_iterations_{0}`: a
default-constructed planner has cap 0, i.e. unbounded search — no
`findRoute` call on a cap-0 planner can fail with
`iterationLimitExceeded`, and the uncapped traversal always ends with the
goal found or the frontier exhausted. -/
theorem claim_C10 :
    (RoutePlanner.max_iterations ({} : RoutePlanner α) = 0) ∧
    (∀ (p : RoutePlanner α) (g : Graph α) (s t : Nat),
      p.max_iterations = 0 →
      (findRoute p g s t).1 ≠ .error .iterationLimitExceeded) ∧
    (∀ (topo : Topo) (chain : ScorerChain α) (s t : Nat),
      (findShortestGraphTraversal topo chain 0 s t).done
          = some .goalFound ∨
        (findShortestGraphTraversal topo chain 0 s t).done
          = some .exhausted) := by
  refine ⟨rfl, ?_, ?_⟩
  · intro p g s t hp
    by_cases hrng : s < g.length ∧ t < g.length
    · by_cases hst : s = t
      · rw [findRoute_trivial hrng hst]
        simp
      · rw [findRoute_run hrng.1 hrng.2 hst]
        dsimp only
        rw [hp]
        intro h
        rcases traversal_cap0_outcome (g.map Node.out) p.edge_scorer s t
          with h0 | h0
        · rw [routeFromSearch_goalFound h0] at h
          exact absurd h (by simp)
        · rw [routeFromSearch_exhausted h0] at h
          exact absurd h (by simp)
    · rw [findRoute_invalid hrng]
      simp
  · intro topo chain s t
    exact traversal_cap0_outcome topo chain s t

end Nav2Route
